import Mathlib

/-!
Verification development for the concept/relationship consolidation pipeline of
`api/services/text_processing.py` (class `TextProcessingService`).

Modelling conventions:
* Python strings are modelled as `List Char` (`PyStr`); Python floats as `ℝ`
  (every float literal in the source is an exact decimal, and the only
  irrational values produced are square roots inside `cosine_similarity`).
* Python dicts for concepts/relationships are records; a key that may be
  absent (`embedding`, `tier`, `connections`) is an `Option` field.
* Fallible calls that `raise` are modelled with `Except String`.
* Classical decidability is used for tests on real numbers (`0.87 <= sim`),
  mirroring the source's float comparisons.
-/

open scoped Classical

namespace TextProcessing

abbrev PyStr := List Char

/-- Python `str.strip()`: drop whitespace from both ends. -/
def pyStrip (s : PyStr) : PyStr :=
  ((s.dropWhile Char.isWhitespace).reverse.dropWhile Char.isWhitespace).reverse

/-- Python `text.rfind('.', start, stop)`: greatest index `i` with
`start ≤ i < stop` and `text[i] = '.'`, if any (`-1` becomes `none`). -/
def rfindDot (t : PyStr) (start stop : Nat) : Option Nat :=
  ((List.range stop).filter (fun i => decide (start ≤ i ∧ t.getD i ' ' = '.'))).getLast?

/-- The cut point chosen by one iteration of `_chunk`'s loop:
`end = min(n, start + target)`, then prefer a sentence boundary unless it is
missing or not more than 200 characters past `start`. -/
def chunkCut (t : PyStr) (target start : Nat) : Nat :=
  let stop := min t.length (start + target)
  match rfindDot t start stop with
  | some c => if c ≤ start + 200 then stop else c
  | none => stop

/-- The next window start chosen by `_chunk`: `start = max(cut - overlap, cut)`. -/
def chunkNext (t : PyStr) (target overlap start : Nat) : Nat :=
  max (chunkCut t target start - overlap) (chunkCut t target start)

/-- The `while start < n` loop of `_chunk`, with explicit fuel (the source loop
has no bound of its own; `t.length + 1` steps suffice whenever `target ≥ 1`,
since then each iteration strictly increases `start`). -/
def chunkAux (t : PyStr) (target overlap : Nat) : Nat → Nat → List PyStr
  | 0, _ => []
  | fuel + 1, start =>
    if start < t.length then
      pyStrip ((t.take (chunkCut t target start)).drop start) ::
        chunkAux t target overlap fuel (chunkNext t target overlap start)
    else []

/-- `TextProcessingService._chunk(text, target, overlap)`:
collect the loop's chunks, then keep only those longer than 200 characters. -/
def pyChunk (t : PyStr) (target overlap : Nat) : List PyStr :=
  (chunkAux t target overlap (t.length + 1) 0).filter (fun c => 200 < c.length)

/-- `np.linalg.norm`: square root of the sum of squares. -/
noncomputable def l2norm (v : List ℝ) : ℝ :=
  Real.sqrt ((v.map fun x => x * x).sum)

/-- `TextProcessingService.cosine_similarity(vec1, vec2)`: dot product over the
product of norms, with an explicit `0.0` result when either norm is zero. -/
noncomputable def cosine_similarity (v1 v2 : List ℝ) : ℝ :=
  if l2norm v1 = 0 ∨ l2norm v2 = 0 then 0
  else (List.zipWith (fun a b => a * b) v1 v2).sum / (l2norm v1 * l2norm v2)

/-- A concept dict.  `embedding`, `tier`, `connections` model keys that may be
absent from the dict. -/
structure Concept where
  name : String
  description : String := ""
  importance : ℝ := 0.5
  embedding : Option (List ℝ) := none
  aliases : List String := []
  tier : Option Nat := none
  connections : Option Nat := none

/-- A relationship dict.  Raw extracted edges carry `inferred := false`
(the key is absent, and the code reads it with default `False`). -/
structure Rel where
  source : String
  target : String
  type : String
  strength : ℝ
  description : String := ""
  inferred : Bool := false

section ChunkTheorems

theorem rfindDot_mem_bounds {t : PyStr} {start stop c : Nat}
    (h : rfindDot t start stop = some c) : start ≤ c ∧ c < stop := by
  have hmem : c ∈ (List.range stop).filter
      (fun i => decide (start ≤ i ∧ t.getD i ' ' = '.')) := by
    unfold rfindDot at h
    have h' : c ∈ ((List.range stop).filter
        (fun i => decide (start ≤ i ∧ t.getD i ' ' = '.'))).getLast? :=
      Option.mem_def.2 h
    rcases List.mem_getLast?_eq_getLast h' with ⟨hne, hc⟩
    exact hc ▸ List.getLast_mem hne
  rcases List.mem_filter.1 hmem with ⟨hr, hp⟩
  have hp' := of_decide_eq_true hp
  exact ⟨hp'.1, List.mem_range.1 hr⟩

theorem chunkCut_gt_start (t : PyStr) (target start : Nat)
    (htarget : 1 ≤ target) (hstart : start < t.length) :
    start < chunkCut t target start := by
  have hstop : start < min t.length (start + target) :=
    lt_min hstart (by omega)
  unfold chunkCut
  rcases hc : rfindDot t start (min t.length (start + target)) with _ | c
  · simpa [hc] using hstop
  · have hb := rfindDot_mem_bounds hc
    by_cases hle : c ≤ start + 200
    · simpa [hc, hle] using hstop
    · simp only [hc, if_neg hle]
      omega

theorem chunkNext_eq_cut (t : PyStr) (target overlap start : Nat) :
    chunkNext t target overlap start = chunkCut t target start := by
  unfold chunkNext
  exact max_eq_right (Nat.sub_le _ _)

set_option maxRecDepth 10000

/-- C10: for every text, `target ≥ 1` and any `overlap`, each iteration of
`_chunk`'s loop strictly advances: the chosen cut exceeds the current start
(either a sentence cut more than 200 characters past start, or the raw window
end), the next start equals `max(cut - overlap, cut) = cut`, and the measure
`n - start` strictly decreases, so `_chunk` terminates. -/
theorem chunk_loop_terminates (t : PyStr) (target overlap start : Nat)
    (htarget : 1 ≤ target) (hstart : start < t.length) :
    start < chunkCut t target start ∧
    chunkNext t target overlap start = chunkCut t target start ∧
    t.length - chunkNext t target overlap start < t.length - start := by
  have hcut := chunkCut_gt_start t target start htarget hstart
  have hnext := chunkNext_eq_cut t target overlap start
  exact ⟨hcut, hnext, by omega⟩

/-- Witness for C10 at a concrete text. -/
theorem chunk_loop_terminates_witness :
    1 ≤ 250 ∧ 0 < (List.replicate 300 'a').length ∧
      (0 < chunkCut (List.replicate 300 'a') 250 0 ∧
       chunkNext (List.replicate 300 'a') 250 50 0 =
         chunkCut (List.replicate 300 'a') 250 0 ∧
       (List.replicate 300 'a').length - chunkNext (List.replicate 300 'a') 250 50 0 <
         (List.replicate 300 'a').length - 0) :=
  ⟨by decide, by decide,
    chunk_loop_terminates (List.replicate 300 'a') 250 50 0 (by decide) (by decide)⟩

/-- C8 (code bug): on a 500-character text with no periods, `_chunk` with
`target = 250`, `overlap = 50` returns two chunks that partition the text:
the second window starts exactly at the first cut (`max(cut - overlap, cut)
= cut`), so adjacent chunks share no text, contradicting the documented
overlap behaviour. -/
theorem chunk_chunks_disjoint_at_500a :
    pyChunk (List.replicate 500 'a') 250 50 =
      [List.replicate 250 'a', List.replicate 250 'a'] ∧
    ((pyChunk (List.replicate 500 'a') 250 50).map List.length).sum =
      (List.replicate 500 'a').length := by
  constructor
  · decide
  · decide

end ChunkTheorems

section CosineTheorems

theorem sum_sq_nonneg (v : List ℝ) : 0 ≤ (v.map fun x => x * x).sum := by
  apply List.sum_nonneg
  intro x hx
  rcases List.mem_map.1 hx with ⟨y, _, rfl⟩
  exact mul_self_nonneg y

theorem l2norm_nonneg (v : List ℝ) : 0 ≤ l2norm v := Real.sqrt_nonneg _

/-- Scalar core of the Cauchy-Schwarz induction step. -/
theorem cs_step_scalar (a b d A B : ℝ) (hA : 0 ≤ A) (hB : 0 ≤ B)
    (hd : d ^ 2 ≤ A * B) : 2 * (a * b) * d ≤ a ^ 2 * B + A * b ^ 2 := by
  have h1 : (2 * (a * b) * d) ^ 2 ≤ (a ^ 2 * B + A * b ^ 2) ^ 2 := by
    nlinarith [sq_nonneg (a ^ 2 * B - A * b ^ 2),
      mul_nonneg (sq_nonneg (a * b)) (sub_nonneg.2 hd)]
  have h2 : 0 ≤ a ^ 2 * B + A * b ^ 2 := by positivity
  have h3 := Real.sqrt_le_sqrt h1
  rw [Real.sqrt_sq_eq_abs, Real.sqrt_sq h2] at h3
  exact le_trans (le_abs_self _) h3

/-- Cauchy-Schwarz for lists, squared form. -/
theorem list_cauchy_schwarz :
    ∀ v1 v2 : List ℝ,
      ((List.zipWith (fun a b => a * b) v1 v2).sum) ^ 2 ≤
        ((v1.map fun x => x * x).sum) * ((v2.map fun x => x * x).sum)
  | [], v2 => by
    simp
  | v1, [] => by
    cases v1 with
    | nil => simp
    | cons a as =>
      simp only [List.zipWith_nil_right, List.sum_nil, List.map_nil, ne_eq,
        OfNat.ofNat_ne_zero, not_false_eq_true, zero_pow]
      exact mul_nonneg (sum_sq_nonneg (a :: as)) (le_refl (0 : ℝ))
  | a :: as, b :: bs => by
    have ih := list_cauchy_schwarz as bs
    have hA := sum_sq_nonneg as
    have hB := sum_sq_nonneg bs
    have hkey := cs_step_scalar a b ((List.zipWith (fun a b => a * b) as bs).sum)
      ((as.map fun x => x * x).sum) ((bs.map fun x => x * x).sum) hA hB ih
    simp only [List.zipWith_cons_cons, List.map_cons, List.sum_cons]
    nlinarith [ih, hkey]

theorem abs_dot_le_norms (v1 v2 : List ℝ) :
    |(List.zipWith (fun a b => a * b) v1 v2).sum| ≤ l2norm v1 * l2norm v2 := by
  have h := list_cauchy_schwarz v1 v2
  have h1 := sum_sq_nonneg v1
  have h2 := sum_sq_nonneg v2
  have habs : |(List.zipWith (fun a b => a * b) v1 v2).sum| =
      Real.sqrt (((List.zipWith (fun a b => a * b) v1 v2).sum) ^ 2) :=
    (Real.sqrt_sq_eq_abs _).symm
  rw [habs]
  calc Real.sqrt (((List.zipWith (fun a b => a * b) v1 v2).sum) ^ 2)
      ≤ Real.sqrt (((v1.map fun x => x * x).sum) * ((v2.map fun x => x * x).sum)) :=
        Real.sqrt_le_sqrt h
    _ = l2norm v1 * l2norm v2 := Real.sqrt_mul h1 _

/-- C9: cosine similarity is symmetric, lies in `[-1, 1]`, and is exactly `0`
whenever either vector has zero magnitude, for all equal-length vectors. -/
theorem cosine_similarity_props (v1 v2 : List ℝ) (_hlen : v1.length = v2.length) :
    cosine_similarity v1 v2 = cosine_similarity v2 v1 ∧
    -1 ≤ cosine_similarity v1 v2 ∧ cosine_similarity v1 v2 ≤ 1 ∧
    ((l2norm v1 = 0 ∨ l2norm v2 = 0) → cosine_similarity v1 v2 = 0) := by
  refine ⟨?_, ?_, ?_, ?_⟩
  · unfold cosine_similarity
    rw [List.zipWith_comm_of_comm (fun a b => a * b) mul_comm v1 v2]
    exact if_congr or_comm rfl (by rw [mul_comm])
  · unfold cosine_similarity
    split
    · norm_num
    · next hz =>
      push_neg at hz
      have h1 : 0 < l2norm v1 := lt_of_le_of_ne (l2norm_nonneg v1) (Ne.symm hz.1)
      have h2 : 0 < l2norm v2 := lt_of_le_of_ne (l2norm_nonneg v2) (Ne.symm hz.2)
      have hpos : 0 < l2norm v1 * l2norm v2 := mul_pos h1 h2
      have habs := abs_dot_le_norms v1 v2
      have hge := neg_le_of_abs_le habs
      rw [le_div_iff₀ hpos]
      linarith
  · unfold cosine_similarity
    split
    · norm_num
    · next hz =>
      push_neg at hz
      have h1 : 0 < l2norm v1 := lt_of_le_of_ne (l2norm_nonneg v1) (Ne.symm hz.1)
      have h2 : 0 < l2norm v2 := lt_of_le_of_ne (l2norm_nonneg v2) (Ne.symm hz.2)
      have hpos : 0 < l2norm v1 * l2norm v2 := mul_pos h1 h2
      have habs := abs_dot_le_norms v1 v2
      have hle := le_of_abs_le habs
      rw [div_le_one hpos]
      exact hle
  · intro h
    unfold cosine_similarity
    rw [if_pos h]

/-- Witness for C9 at concrete vectors, one of zero magnitude. -/
theorem cosine_similarity_props_witness :
    [(0 : ℝ), 0].length = [(3 : ℝ), 4].length ∧
    (cosine_similarity [(0 : ℝ), 0] [3, 4] = cosine_similarity [3, 4] [(0 : ℝ), 0] ∧
     -1 ≤ cosine_similarity [(0 : ℝ), 0] [3, 4] ∧
     cosine_similarity [(0 : ℝ), 0] [3, 4] ≤ 1 ∧
     ((l2norm [(0 : ℝ), 0] = 0 ∨ l2norm [(3 : ℝ), 4] = 0) →
       cosine_similarity [(0 : ℝ), 0] [3, 4] = 0)) :=
  ⟨rfl, cosine_similarity_props [(0 : ℝ), 0] [3, 4] rfl⟩

end CosineTheorems

/-! ### Concept deduplication (`_merge_dupes_by_embedding`) -/

/-- Index of the first element attaining the maximum, as computed by Python's
`max(..., key=...)` (which keeps the earliest element on ties). -/
noncomputable def argmaxIdxAux : List ℝ → Nat → Nat → ℝ → Nat
  | [], _, bi, _ => bi
  | v :: vs, i, bi, bv =>
    if bv < v then argmaxIdxAux vs (i + 1) i v else argmaxIdxAux vs (i + 1) bi bv

noncomputable def argmaxIdx : List ℝ → Nat
  | [] => 0
  | v :: vs => argmaxIdxAux vs 1 0 v

/-- The duplicate test of the merge loop: both concepts carry an embedding and
`cosine_similarity >= sim_thresh`. -/
noncomputable def simTestB (thresh : ℝ) (c x : Concept) : Bool :=
  match c.embedding, x.embedding with
  | some e1, some e2 => decide (thresh ≤ cosine_similarity e1 e2)
  | _, _ => false

/-- The greedy grouping loop of `_merge_dupes_by_embedding`: each unconsumed
concept anchors a group of all later unconsumed concepts similar to it; the
first highest-importance member becomes canonical; the names of the other
members (deduplicated — the source builds a Python `set`, whose iteration
order is unspecified; we fix first-occurrence order) overwrite its `aliases`
key when non-empty. -/
noncomputable def mergeGroups (thresh : ℝ) : List Concept → List Concept
  | [] => []
  | c :: rest =>
    let dups := rest.filter (fun x => simTestB thresh c x)
    let others := rest.filter (fun x => !(simTestB thresh c x))
    let g := c :: dups
    let bi := argmaxIdx (g.map (·.importance))
    let best := g.getD bi c
    let als := ((g.eraseIdx bi).map (·.name)).dedup
    (if als = [] then best else { best with aliases := als }) :: mergeGroups thresh others
  termination_by l => l.length
  decreasing_by
    simp only [List.length_cons]
    exact Nat.lt_succ_of_le (List.length_filter_le _ _)

/-- Assign the generated embeddings positionally (`c['embedding'] = embeds[i]`,
overwriting any embedding already present). -/
def assignEmbeds (cs : List Concept) (es : List (List ℝ)) : List Concept :=
  cs.mapIdx fun i c => { c with embedding := es.get? i }

/-- `TextProcessingService._merge_dupes_by_embedding(concepts, sim_thresh)`.
The batch embedding call (`generate_embeddings_batch`) is an injected fallible
collaborator; its failure is re-raised and propagates out of the merge. -/
noncomputable def mergeDupesByEmbedding
    (embedder : List String → Except String (List (List ℝ)))
    (thresh : ℝ) (cs : List Concept) : Except String (List Concept) :=
  if cs.isEmpty then .ok cs
  else if cs.any (fun c => c.embedding.isNone) then
    match embedder (cs.map fun c => c.name ++ ": " ++ c.description) with
    | .error e => .error ("Batch embedding generation failed: " ++ e)
    | .ok es => .ok (mergeGroups thresh (assignEmbeds cs es))
  else .ok (mergeGroups thresh cs)

/-- The exact-name fallback dedup of `process_text` step 3 (keep the first
concept for each non-empty name). -/
def exactNameDedupAux : List Concept → List String → List Concept
  | [], _ => []
  | c :: rest, seen =>
    if c.name ≠ "" ∧ c.name ∉ seen then
      c :: exactNameDedupAux rest (c.name :: seen)
    else exactNameDedupAux rest seen

def exactNameDedup (cs : List Concept) : List Concept := exactNameDedupAux cs []

/-! ### Connectivity and hierarchy (`build_hierarchy_and_connectivity`) -/

/-- The key set of `concept_names` / `concept_connections` / `adjacency`. -/
def namesOf (cs : List Concept) : Finset String := (cs.map (·.name)).toFinset

/-- A relationship is entered into the adjacency structure only when both of
its endpoints are known concept names. -/
def validRel (cs : List Concept) (r : Rel) : Prop :=
  r.source ∈ namesOf cs ∧ r.target ∈ namesOf cs

instance (cs : List Concept) (r : Rel) : Decidable (validRel cs r) :=
  inferInstanceAs (Decidable (_ ∧ _))

/-- Undirected neighbours of `x` in the adjacency structure built from
`relationships`. -/
def nbrs (cs : List Concept) (rels : List Rel) (x : String) : Finset String :=
  (namesOf cs).filter fun y => ∃ r ∈ rels, validRel cs r ∧
    ((r.source = x ∧ r.target = y) ∨ (r.target = x ∧ r.source = y))

/-- One round of breadth expansion over the adjacency structure. -/
def stepNbrs (cs : List Concept) (rels : List Rel) (S : Finset String) : Finset String :=
  S ∪ S.biUnion (nbrs cs rels)

/-- The set of vertices reachable from `x`: `cs.length` rounds of expansion
reach a fixed point, so this is the connected component of `x` computed by the
source's BFS (`find_connected_components`). -/
def reachSet (cs : List Concept) (rels : List Rel) (x : String) : Finset String :=
  (stepNbrs cs rels)^[cs.length] {x}

/-- `find_connected_components()`: components listed in order of the first
concept discovered in each (as the source's outer loop over `concepts` does);
each component is the reachable set of its first concept. -/
def componentsOf (cs : List Concept) (rels : List Rel) : List (Finset String) :=
  cs.foldl
    (fun comps c =>
      if comps.any (fun S => decide (c.name ∈ S)) then comps
      else comps ++ [reachSet cs rels c.name])
    []

/-- `max(components, key=len)` — first component of maximal size. -/
def mainComp : List (Finset String) → Finset String
  | [] => ∅
  | h :: t => t.foldl (fun b c => if b.card < c.card then c else b) h

/-- `concept_connections` after step 1: each relationship with two known
endpoints increments the counter of both endpoints. -/
def connCount (cs : List Concept) (rels : List Rel) (nm : String) : Nat :=
  rels.foldl
    (fun k r =>
      k + (if validRel cs r ∧ r.source = nm then 1 else 0)
        + (if validRel cs r ∧ r.target = nm then 1 else 0))
    0

/-- The concepts whose names lie in a component, in concept order (the source
iterates a Python set of names and resolves each via
`next(c for c in concepts if c['name'] == name)`; set iteration order is
unspecified, we fix concept-list order). -/
def conceptsIn (cs : List Concept) (S : Finset String) : List Concept :=
  cs.filter fun c => c.name ∈ S

/-- One candidate-pair step of the best-bridge search: considered only when
both concepts carry embeddings; strictly greater similarity replaces the
incumbent (initial best similarity is `-1`). -/
noncomputable def bestPairStep (st : Option String × Option String × ℝ)
    (p : Concept × Concept) : Option String × Option String × ℝ :=
  match p.1.embedding, p.2.embedding with
  | some e1, some e2 =>
    if st.2.2 < cosine_similarity e1 e2 then
      (some p.1.name, some p.2.name, cosine_similarity e1 e2)
    else st
  | _, _ => st

/-- The exhaustive pair search of step 3: every concept of the minor component
against every concept of the main component. -/
noncomputable def bestPair (csC csM : List Concept) : Option String × Option String × ℝ :=
  (csC.flatMap fun c1 => csM.map fun c2 => (c1, c2)).foldl bestPairStep (none, none, -1)

/-- Python truthiness of `best_source` / `best_target` (`None` and the empty
string are falsy). -/
def truthyName : Option String → Bool
  | some s => decide (s ≠ "")
  | none => false

/-- `max(list_of_concepts, key=importance)` — first maximal element. -/
noncomputable def maxByImp : List Concept → Option Concept
  | [] => none
  | c :: rest =>
    some (rest.foldl (fun b g => if b.importance < g.importance then g else b) c)

/-- The bridge relationship synthesized for one minor component: best
similarity pair when found (and truthy), otherwise the highest-importance
fallback pair.  `none` is unreachable for components produced by
`componentsOf`. -/
noncomputable def mkBridge (cs : List Concept) (mainC comp : Finset String) : Option Rel :=
  let bp := bestPair (conceptsIn cs comp) (conceptsIn cs mainC)
  if truthyName bp.1 ∧ truthyName bp.2.1 then
    some { source := bp.1.getD "", target := bp.2.1.getD "", type := "related-to",
           strength := max 0.5 (bp.2.2 * 0.8),
           description := "Bridge connection (component merge)", inferred := true }
  else
    match maxByImp (conceptsIn cs comp), maxByImp (conceptsIn cs mainC) with
    | some sc, some tc =>
      some { source := sc.name, target := tc.name, type := "related-to",
             strength := 0.6, description := "Bridge connection (fallback)",
             inferred := true }
    | _, _ => none

/-- Step 3: when more than one component exists, bridge every non-main
component to the main (largest) component, in component order.  (The source
also updates its `adjacency` dict after each bridge, but that structure is
never read again by the bridging loop — each search runs against the fixed
`main_component` set.) -/
noncomputable def bridgeRels (cs : List Concept) (rels : List Rel) : List Rel :=
  if 1 < (componentsOf cs rels).length then
    ((componentsOf cs rels).filter fun S => S ≠ mainComp (componentsOf cs rels)).filterMap
      (mkBridge cs (mainComp (componentsOf cs rels)))
  else []

/-- Step 4's recount: original counts plus one per bridge endpoint that is a
known name. -/
noncomputable def countAfterBridges (cs : List Concept) (rels : List Rel) (nm : String) : Nat :=
  connCount cs rels nm +
    (bridgeRels cs rels).foldl
      (fun k r =>
        k + (if r.source ∈ namesOf cs ∧ r.source = nm then 1 else 0)
          + (if r.target ∈ namesOf cs ∧ r.target = nm then 1 else 0))
      0

/-- The nearest-neighbour search for one isolated concept: every other concept
with an embedding, strict improvement over initial `-1`. -/
noncomputable def bestMatch (cs : List Concept) (ic : Concept) (e : List ℝ) :
    Option Concept × ℝ :=
  cs.foldl
    (fun st c =>
      if c.name ≠ ic.name then
        match c.embedding with
        | some e2 =>
          if st.2 < cosine_similarity e e2 then (some c, cosine_similarity e e2) else st
        | none => st
      else st)
    (none, -1)

/-- One iteration of the isolated-concept sweep: append a `Connectivity link`
and bump both endpoint counters. -/
noncomputable def isoStep (cs : List Concept) (st : List Rel × (String → Nat))
    (ic : Concept) : List Rel × (String → Nat) :=
  match ic.embedding with
  | none => st
  | some e =>
    match bestMatch cs ic e with
    | (some bm, bsim) =>
      (st.1 ++ [{ source := ic.name, target := bm.name, type := "related-to",
                  strength := max 0.5 (bsim * 0.8),
                  description := "Connectivity link", inferred := true }],
       fun nm => st.2 nm + (if nm = ic.name then 1 else 0) + (if nm = bm.name then 1 else 0))
    | (none, _) => st

/-- Step 4: the isolated list is computed once from the post-bridge counts,
then processed in order; the produced links and the final counter map. -/
noncomputable def isoResult (cs : List Concept) (rels : List Rel) :
    List Rel × (String → Nat) :=
  (cs.filter fun c => countAfterBridges cs rels c.name = 0).foldl (isoStep cs)
    ([], countAfterBridges cs rels)

/-- Step 5: tier from importance/connections; the connection count is stored. -/
noncomputable def assignTiers (cs : List Concept) (counts : String → Nat) : List Concept :=
  cs.map fun c =>
    { c with
      tier := some (if 0.7 < c.importance ∨ 2 ≤ counts c.name then 1 else 2),
      connections := some (counts c.name) }

/-- Step 6: when no concept got tier 1, promote the first concept of globally
maximal importance. -/
noncomputable def promoteIfNoTier1 (cs : List Concept) : List Concept :=
  if (∀ c ∈ cs, c.tier ≠ some 1) ∧ ¬cs.isEmpty then
    match cs.get? (argmaxIdx (cs.map (·.importance))) with
    | some c => cs.set (argmaxIdx (cs.map (·.importance))) { c with tier := some 1 }
    | none => cs
  else cs

/-- `TextProcessingService.build_hierarchy_and_connectivity(concepts,
relationships)`. -/
noncomputable def buildHierarchyAndConnectivity (cs : List Concept) (rels : List Rel) :
    List Concept × List Rel :=
  if cs.isEmpty then (cs, rels)
  else if cs.length = 1 then
    (cs.map fun c => { c with tier := some 1, connections := some 0 }, rels)
  else
    let iso := isoResult cs rels
    (promoteIfNoTier1 (assignTiers cs iso.2), rels ++ bridgeRels cs rels ++ iso.1)

/-! ### Pipeline orchestrator (`process_text`) -/

/-- The response dict of `process_text` (metadata flattened into fields). -/
structure ProcessResponse where
  concepts : List Concept
  relationships : List Rel
  conceptsFound : Nat
  relationshipsFound : Nat
  explicitRelationships : Nat
  inferredRelationships : Nat
  tier1Concepts : Nat
  tier2Concepts : Nat
  inputLength : Nat
  embeddingsGenerated : Bool
  chunkCount : Nat

/-- Step 1 of `process_text`: texts under 3000 characters bypass chunking,
and an empty chunk list falls back to the whole text. -/
def chunksOf (text : PyStr) : List PyStr :=
  if text.length < 3000 then [text]
  else if (pyChunk text 1800 200).isEmpty then [text] else pyChunk text 1800 200

/-- `TextProcessingService.process_text`.  The two LLM collaborators are
injected: per-chunk concept extraction may raise (and its error propagates),
while relationship extraction catches its own per-batch errors internally and
therefore appears as a total function.  The embedding collaborator is the one
threaded into `_merge_dupes_by_embedding`; note that no handler surrounds that
call, so its failure propagates out of `process_text`. -/
noncomputable def processText
    (extractConcepts : PyStr → Except String (List Concept))
    (extractRelationships : PyStr → List Concept → List Rel)
    (embedder : List String → Except String (List (List ℝ)))
    (extractRels generateEmbeddings : Bool)
    (text : PyStr) : Except String ProcessResponse :=
  if pyStrip text = [] then .error "Text cannot be empty"
  else if text.length < 100 then .error "Text must be at least 100 characters"
  else if 50000 < text.length then .error "Text cannot exceed 50,000 characters"
  else do
      let conceptsAll ← (chunksOf text).foldlM
        (fun acc ch => (extractConcepts ch).map (acc ++ ·)) []
      let conceptsDeduped ←
        if generateEmbeddings && !conceptsAll.isEmpty then
          mergeDupesByEmbedding embedder 0.87 conceptsAll
        else .ok (exactNameDedup conceptsAll)
      let rels := if extractRels && !conceptsDeduped.isEmpty then
          extractRelationships text conceptsDeduped
        else []
      let builtPair := if !conceptsDeduped.isEmpty then
          buildHierarchyAndConnectivity conceptsDeduped rels
        else (conceptsDeduped, rels)
      let inferredCount := (builtPair.2.filter (·.inferred)).length
      .ok { concepts := builtPair.1
            relationships := builtPair.2
            conceptsFound := builtPair.1.length
            relationshipsFound := builtPair.2.length
            explicitRelationships := builtPair.2.length - inferredCount
            inferredRelationships := inferredCount
            tier1Concepts := (builtPair.1.filter (·.tier = some 1)).length
            tier2Concepts := (builtPair.1.filter (·.tier = some 2)).length
            inputLength := text.length
            embeddingsGenerated := generateEmbeddings
            chunkCount := (chunksOf text).length }

section ProcessTextErrorTheorems

/-- C7 (counterexample): a valid text, one extracted concept with no
embedding, and a failing embedding collaborator — `process_text` raises the
propagated embedding error instead of returning a degraded success. -/
theorem processText_aborts_on_embedding_failure :
    processText (fun _ => .ok [{ name := "X" }]) (fun _ _ => [])
      (fun _ => .error "boom") true true (List.replicate 100 'a') =
      .error "Batch embedding generation failed: boom" := by
  rfl

/-- C7 (amended): if embedding generation fails during deduplication while
embeddings are requested and some extracted concept lacks an embedding, the
failure propagates and `process_text` returns the raised error; the
exact-name fallback runs only when embeddings are not requested (in which
case, extraction having succeeded, the request does succeed). -/
theorem processText_embedding_failure_behaviour
    (extractor : PyStr → Except String (List Concept))
    (relEx : PyStr → List Concept → List Rel)
    (embedder : List String → Except String (List (List ℝ)))
    (extractRels : Bool) (e : String) (text : PyStr) (cs : List Concept)
    (hstrip : pyStrip text ≠ [])
    (hlen1 : 100 ≤ text.length) (hlen2 : text.length ≤ 50000)
    (hextract : (chunksOf text).foldlM
      (fun acc ch => (extractor ch).map (acc ++ ·)) ([] : List Concept) = .ok cs)
    (hne : ¬cs.isEmpty)
    (hmiss : ∃ c ∈ cs, c.embedding = none)
    (hfail : embedder (cs.map fun c => c.name ++ ": " ++ c.description) = .error e) :
    processText extractor relEx embedder extractRels true text =
      .error ("Batch embedding generation failed: " ++ e) ∧
    ∃ res, processText extractor relEx embedder extractRels false text = .ok res := by
  have hne' : cs.isEmpty = false := by simpa using hne
  have hmerge : mergeDupesByEmbedding embedder 0.87 cs =
      .error ("Batch embedding generation failed: " ++ e) := by
    unfold mergeDupesByEmbedding
    rw [if_neg (by simp [hne']), if_pos, hfail]
    rcases hmiss with ⟨c, hc, hce⟩
    exact List.any_eq_true.2 ⟨c, hc, by simp [hce]⟩
  constructor
  · unfold processText
    rw [if_neg hstrip, if_neg (by omega), if_neg (by omega), hextract]
    simp only [bind, Except.bind, hne', Bool.not_false, Bool.and_self, if_true, hmerge]
  · unfold processText
    rw [if_neg hstrip, if_neg (by omega), if_neg (by omega), hextract]
    simp only [bind, Except.bind, Bool.false_and, Bool.false_eq_true, if_false]
    exact ⟨_, rfl⟩

/-- Witness for the amended C7 theorem at concrete inputs. -/
theorem processText_embedding_failure_behaviour_witness :
    pyStrip (List.replicate 120 'b') ≠ [] ∧
    (processText (fun _ => .ok [{ name := "Y" }]) (fun _ _ => [])
        (fun _ => .error "down") true true (List.replicate 120 'b') =
        .error ("Batch embedding generation failed: " ++ "down") ∧
     ∃ res, processText (fun _ => .ok [{ name := "Y" }]) (fun _ _ => [])
        (fun _ => .error "down") true false (List.replicate 120 'b') = .ok res) :=
  ⟨by decide,
    processText_embedding_failure_behaviour (fun _ => .ok [{ name := "Y" }])
      (fun _ _ => []) (fun _ => .error "down") true "down"
      (List.replicate 120 'b') [{ name := "Y" }]
      (by decide) (by decide) (by decide) (by rfl) (by decide)
      ⟨{ name := "Y" }, by simp, rfl⟩ rfl⟩

end ProcessTextErrorTheorems

/-! ### Evaluation helpers for concrete vectors -/

section EvalHelpers

theorem sqrt_eval {x y : ℝ} (hy : 0 ≤ y) (h : y ^ 2 = x) : Real.sqrt x = y := by
  rw [← h]
  exact Real.sqrt_sq hy

theorem sqrt_le_of_sq_le {x y : ℝ} (hy : 0 ≤ y) (h : x ≤ y ^ 2) : Real.sqrt x ≤ y := by
  calc Real.sqrt x ≤ Real.sqrt (y ^ 2) := Real.sqrt_le_sqrt h
  _ = y := Real.sqrt_sq hy

theorem l2norm2 (a b : ℝ) : l2norm [a, b] = Real.sqrt (a * a + b * b) := by
  unfold l2norm
  norm_num

theorem cosine2_eval (a b c d n1 n2 : ℝ) (h1 : l2norm [a, b] = n1)
    (h2 : l2norm [c, d] = n2) (hn1 : n1 ≠ 0) (hn2 : n2 ≠ 0) :
    cosine_similarity [a, b] [c, d] = (a * c + b * d) / (n1 * n2) := by
  unfold cosine_similarity
  rw [h1, h2, if_neg (by tauto)]
  norm_num

end EvalHelpers

/-! ### Deduplicator theorems (C5, C6) -/

section DedupTheorems

theorem mergeGroups_nil (t : ℝ) : mergeGroups t [] = [] := by
  rw [mergeGroups]

theorem mergeGroups_cons (t : ℝ) (c : Concept) (rest : List Concept) :
    mergeGroups t (c :: rest) =
      (let g := c :: rest.filter (fun x => simTestB t c x)
       let bi := argmaxIdx (g.map (·.importance))
       let als := ((g.eraseIdx bi).map (·.name)).dedup
       (if als = [] then g.getD bi c else { g.getD bi c with aliases := als })) ::
      mergeGroups t (rest.filter fun x => !(simTestB t c x)) := by
  rw [mergeGroups]

/-- C5: two concepts "Machine Learning" (importance 0.9) and "ML Basics"
(importance 0.6) whose embeddings have cosine similarity 0.95 (at or above
the 0.87 threshold against the group anchor) merge into the single
higher-importance concept "Machine Learning" with aliases `["ML Basics"]`. -/
theorem merge_dupes_scenario
    (embedder : List String → Except String (List (List ℝ)))
    (a b : Concept) (ea eb : List ℝ)
    (_haname : a.name = "Machine Learning") (haimp : a.importance = 0.9)
    (hbname : b.name = "ML Basics") (hbimp : b.importance = 0.6)
    (hae : a.embedding = some ea) (hbe : b.embedding = some eb)
    (hsim : cosine_similarity ea eb = 0.95) :
    mergeDupesByEmbedding embedder 0.87 [a, b] =
      .ok [{ a with aliases := ["ML Basics"] }] := by
  have hsimT : simTestB 0.87 a b = true := by
    simp only [simTestB, hae, hbe, hsim, decide_eq_true_eq]
    norm_num
  have hidx : argmaxIdx [a.importance, b.importance] = 0 := by
    rw [haimp, hbimp]
    simp only [argmaxIdx, argmaxIdxAux]
    norm_num
  unfold mergeDupesByEmbedding
  rw [if_neg (by simp), if_neg (by simp [hae, hbe])]
  congr 1
  simp only [mergeGroups_cons, List.filter_cons, List.filter_nil, hsimT, Bool.not_true,
    if_true, if_false, List.map_cons, List.map_nil, hidx, List.getD, List.get?,
    List.eraseIdx, mergeGroups_nil, hbname]
  simp [mergeGroups_nil]

theorem cos_witness_095 :
    cosine_similarity [(1 : ℝ), 0] [0.95, Real.sqrt 0.0975] = 0.95 := by
  have h1 : l2norm [(1 : ℝ), 0] = 1 := by
    rw [l2norm2]
    exact sqrt_eval (by norm_num) (by norm_num)
  have h2 : l2norm [(0.95 : ℝ), Real.sqrt 0.0975] = 1 := by
    rw [l2norm2, Real.mul_self_sqrt (by norm_num),
      show (0.95 : ℝ) * 0.95 + 0.0975 = 1 by norm_num]
    exact Real.sqrt_one
  rw [cosine2_eval 1 0 0.95 (Real.sqrt 0.0975) 1 1 h1 h2 (by norm_num) (by norm_num)]
  simp

/-- Witness for C5 at concrete embeddings whose cosine similarity is 0.95. -/
theorem merge_dupes_scenario_witness :
    cosine_similarity [(1 : ℝ), 0] [0.95, Real.sqrt 0.0975] = 0.95 ∧
    mergeDupesByEmbedding (fun _ => .error "unused") 0.87
      [{ name := "Machine Learning", importance := 0.9, embedding := some [(1 : ℝ), 0] },
       { name := "ML Basics", importance := 0.6,
         embedding := some [(0.95 : ℝ), Real.sqrt 0.0975] }] =
      .ok [{ name := "Machine Learning", importance := 0.9,
             embedding := some [(1 : ℝ), 0], aliases := ["ML Basics"] }] :=
  ⟨cos_witness_095,
    merge_dupes_scenario (fun _ => .error "unused")
      { name := "Machine Learning", importance := 0.9, embedding := some [(1 : ℝ), 0] }
      { name := "ML Basics", importance := 0.6,
        embedding := some [(0.95 : ℝ), Real.sqrt 0.0975] }
      [(1 : ℝ), 0] [(0.95 : ℝ), Real.sqrt 0.0975]
      rfl rfl rfl rfl rfl rfl cos_witness_095⟩

/-- A fixed point of the greedy merge: a list in which no later concept passes
the duplicate test against any earlier one is returned unchanged. -/
theorem mergeGroups_fixpoint (t : ℝ) :
    ∀ cs : List Concept, cs.Pairwise (fun a b => simTestB t a b = false) →
      mergeGroups t cs = cs
  | [], _ => mergeGroups_nil t
  | c :: rest, h => by
    rcases List.pairwise_cons.1 h with ⟨hc, hrest⟩
    have hfilter1 : rest.filter (fun x => simTestB t c x) = [] :=
      List.filter_eq_nil_iff.2 fun x hx => by simp [hc x hx]
    have hfilter2 : rest.filter (fun x => !(simTestB t c x)) = rest :=
      List.filter_eq_self.2 fun x hx => by simp [hc x hx]
    rw [mergeGroups_cons, hfilter1, hfilter2, mergeGroups_fixpoint t rest hrest]
    simp [argmaxIdx, argmaxIdxAux]

/-- C6 (amended): the Deduplicator is idempotent on outputs whose surviving
concepts all carry embeddings and are pairwise below the merge test; in
general a second run can merge further, because a group's canonical concept
(chosen by importance) need not be its anchor, and may pass the threshold
against another surviving concept even though the anchors did not. -/
theorem merge_dupes_idempotent_of_pairwise_dissimilar
    (embedder embedder' : List String → Except String (List (List ℝ)))
    (t : ℝ) (cs out : List Concept)
    (_hout : mergeDupesByEmbedding embedder t cs = .ok out)
    (hemb : ∀ c ∈ out, c.embedding.isSome)
    (hdis : out.Pairwise fun a b => simTestB t a b = false) :
    mergeDupesByEmbedding embedder' t out = .ok out := by
  unfold mergeDupesByEmbedding
  by_cases he : out.isEmpty
  · rw [if_pos he]
  · rw [if_neg he, if_neg (by
      simp only [List.any_eq_true, not_exists, not_and, Bool.not_eq_true]
      intro c hc
      have := hemb c hc
      simp only [Option.isNone_eq_false_iff]
      exact this)]
    exact congrArg Except.ok (mergeGroups_fixpoint t out hdis)

/-- The three concepts of the idempotence counterexample: the anchor "A"
absorbs "C" (similarity `2/√5 ≈ 0.894`), "C" survives as canonical by
importance, and "C" is similar to the other survivor "B" although the anchor
"A" was not. -/
noncomputable def dupA : Concept := { name := "A", importance := 0.5, embedding := some [1, 0] }

noncomputable def dupC : Concept := { name := "C", importance := 0.9, embedding := some [2, 1] }

noncomputable def dupB : Concept := { name := "B", importance := 0.3, embedding := some [3, 4] }

theorem l2norm_21 : l2norm [(2 : ℝ), 1] = Real.sqrt 5 := by
  rw [l2norm2, show (2 : ℝ) * 2 + 1 * 1 = 5 by norm_num]

theorem l2norm_10 : l2norm [(1 : ℝ), 0] = 1 := by
  rw [l2norm2]
  exact sqrt_eval (by norm_num) (by norm_num)

theorem l2norm_34 : l2norm [(3 : ℝ), 4] = 5 := by
  rw [l2norm2]
  exact sqrt_eval (by norm_num) (by norm_num)

theorem sqrt5_le : Real.sqrt 5 ≤ 2 / 0.87 :=
  sqrt_le_of_sq_le (by norm_num) (by norm_num)

theorem sqrt5_pos : (0 : ℝ) < Real.sqrt 5 := Real.sqrt_pos.2 (by norm_num)

theorem simTest_AC : simTestB 0.87 dupA dupC = true := by
  simp only [simTestB, dupA, dupC,
    cosine2_eval 1 0 2 1 1 (Real.sqrt 5) l2norm_10 l2norm_21 (by norm_num) sqrt5_pos.ne',
    decide_eq_true_eq]
  rw [show (1 : ℝ) * 2 + 0 * 1 = 2 by norm_num, show (1 : ℝ) * Real.sqrt 5 = Real.sqrt 5 by ring,
    le_div_iff₀ sqrt5_pos]
  nlinarith [sqrt5_le, sqrt5_pos]

theorem simTest_AB : simTestB 0.87 dupA dupB = false := by
  simp only [simTestB, dupA, dupB,
    cosine2_eval 1 0 3 4 1 5 l2norm_10 l2norm_34 (by norm_num) (by norm_num),
    decide_eq_false_iff_not]
  norm_num

theorem simTest_CB : simTestB 0.87 dupC dupB = true := by
  simp only [simTestB, dupC, dupB,
    cosine2_eval 2 1 3 4 (Real.sqrt 5) 5 l2norm_21 l2norm_34 sqrt5_pos.ne' (by norm_num),
    decide_eq_true_eq]
  rw [show (2 : ℝ) * 3 + 1 * 4 = 10 by norm_num,
    le_div_iff₀ (by positivity : (0 : ℝ) < Real.sqrt 5 * 5)]
  nlinarith [sqrt5_le, sqrt5_pos]

/-- C6 (counterexample): running `_merge_dupes_by_embedding` on
`[A, C, B]` yields `[C (aliases ["A"]), B]`; a second run on that output
merges again and yields `[C (aliases ["B"])]` — the Deduplicator is not
idempotent. -/
theorem merge_dupes_not_idempotent :
    mergeDupesByEmbedding (fun _ => .error "unused") 0.87 [dupA, dupC, dupB] =
      .ok [{ dupC with aliases := ["A"] }, dupB] ∧
    mergeDupesByEmbedding (fun _ => .error "unused") 0.87
      [{ dupC with aliases := ["A"] }, dupB] =
      .ok [{ dupC with aliases := ["B"] }] ∧
    ([{ dupC with aliases := ["A"] }, dupB] : List Concept) ≠
      [{ dupC with aliases := ["B"] }] := by
  have hCB' : simTestB 0.87 { dupC with aliases := ["A"] } dupB = true := simTest_CB
  refine ⟨?_, ?_, ?_⟩
  · have hB1 : mergeGroups 0.87 [dupB] = [dupB] :=
      mergeGroups_fixpoint 0.87 [dupB] (by simp)
    have hidx1 : argmaxIdx (List.map (fun c => c.importance)
        ([dupA, dupC] : List Concept)) = 1 := by
      simp only [dupA, dupC, List.map_cons, List.map_nil, argmaxIdx, argmaxIdxAux]
      norm_num
    have hgd1 : ([dupA, dupC] : List Concept).getD 1 dupA = dupC := rfl
    have hals1 : ((([dupA, dupC] : List Concept).eraseIdx 1).map
        (fun c => c.name)).dedup = ["A"] := by
      simp [dupA]
    unfold mergeDupesByEmbedding
    rw [if_neg (by simp), if_neg (by simp [dupA, dupC, dupB])]
    simp only [mergeGroups_cons, List.filter_cons, List.filter_nil, simTest_AC, simTest_AB,
      Bool.not_true, Bool.not_false, Bool.false_eq_true, if_true, if_false, ite_true, ite_false,
      hB1, hidx1, hgd1, hals1]
    rw [if_neg (by simp)]
  · have hidx2 : argmaxIdx (List.map (fun c => c.importance)
        ([{ dupC with aliases := ["A"] }, dupB] : List Concept)) = 0 := by
      simp only [dupC, dupB, List.map_cons, List.map_nil, argmaxIdx, argmaxIdxAux]
      norm_num
    have hgd2 : ([{ dupC with aliases := ["A"] }, dupB] : List Concept).getD 0
        { dupC with aliases := ["A"] } = { dupC with aliases := ["A"] } := rfl
    have hals2 : ((([{ dupC with aliases := ["A"] }, dupB] : List Concept).eraseIdx 0).map
        (fun c => c.name)).dedup = ["B"] := by
      simp [dupB]
    unfold mergeDupesByEmbedding
    rw [if_neg (by simp), if_neg (by simp [dupC, dupB])]
    simp only [mergeGroups_cons, List.filter_cons, List.filter_nil, hCB',
      Bool.not_true, Bool.false_eq_true, if_true, if_false, ite_true, ite_false,
      mergeGroups_nil, hidx2, hgd2, hals2]
    rw [if_neg (by simp)]
  · intro h
    have := congrArg List.length h
    simp at this

/-- Witness for the amended C6 theorem: a two-concept output whose survivors
are pairwise dissimilar is returned unchanged by a second run. -/
theorem merge_dupes_idempotent_witness :
    mergeDupesByEmbedding (fun _ => .error "unused") 0.87 [dupA, dupB] =
      .ok [dupA, dupB] ∧
    (∀ c ∈ ([dupA, dupB] : List Concept), c.embedding.isSome) ∧
    ([dupA, dupB] : List Concept).Pairwise (fun a b => simTestB 0.87 a b = false) ∧
    mergeDupesByEmbedding (fun _ => .error "also unused") 0.87 [dupA, dupB] =
      .ok [dupA, dupB] := by
  have hdis : ([dupA, dupB] : List Concept).Pairwise
      (fun a b => simTestB 0.87 a b = false) := by
    refine List.pairwise_cons.2 ⟨?_, ?_⟩
    · intro b hb
      rw [List.mem_singleton.1 hb]
      exact simTest_AB
    · simp
  have hrun : mergeDupesByEmbedding (fun _ => .error "unused") 0.87 [dupA, dupB] =
      .ok [dupA, dupB] := by
    unfold mergeDupesByEmbedding
    rw [if_neg (by simp), if_neg (by simp [dupA, dupB])]
    exact congrArg Except.ok (mergeGroups_fixpoint 0.87 _ hdis)
  have hemb : ∀ c ∈ ([dupA, dupB] : List Concept), c.embedding.isSome := by
    intro c hc
    rcases List.mem_cons.1 hc with h | h
    · rw [h]
      simp [dupA]
    · rw [List.mem_singleton.1 h]
      simp [dupB]
  exact ⟨hrun, hemb, hdis,
    merge_dupes_idempotent_of_pairwise_dissimilar (fun _ => .error "unused")
      (fun _ => .error "also unused") 0.87 [dupA, dupB] [dupA, dupB] hrun hemb hdis⟩

end DedupTheorems

/-! ### Graph lemmas for the connectivity claims -/

section GraphTheorems

/-- The undirected adjacency relation generated by a relationship list. -/
def adjP (cs : List Concept) (rels : List Rel) (x y : String) : Prop :=
  y ∈ nbrs cs rels x

theorem mem_nbrs_names {cs : List Concept} {rels : List Rel} {x y : String}
    (h : y ∈ nbrs cs rels x) : y ∈ namesOf cs :=
  (Finset.mem_filter.1 h).1

theorem adjP_symm {cs : List Concept} {rels : List Rel} {x y : String}
    (h : adjP cs rels x y) : adjP cs rels y x := by
  rcases Finset.mem_filter.1 h with ⟨_, r, hr, hv, hcase⟩
  have hx : x ∈ namesOf cs := by
    rcases hcase with ⟨hs, _⟩ | ⟨ht, _⟩
    · exact hs ▸ hv.1
    · exact ht ▸ hv.2
  refine Finset.mem_filter.2 ⟨hx, r, hr, hv, ?_⟩
  rcases hcase with ⟨hs, ht⟩ | ⟨ht, hs⟩
  · exact Or.inr ⟨ht, hs⟩
  · exact Or.inl ⟨hs, ht⟩

theorem adjP_mono {cs : List Concept} {rels rels' : List Rel} {x y : String}
    (hsub : ∀ r ∈ rels, r ∈ rels') (h : adjP cs rels x y) : adjP cs rels' x y := by
  rcases Finset.mem_filter.1 h with ⟨hy, r, hr, hv, hcase⟩
  exact Finset.mem_filter.2 ⟨hy, r, hsub r hr, hv, hcase⟩

theorem adjP_of_rel {cs : List Concept} {rels : List Rel} {r : Rel} (hr : r ∈ rels)
    (hs : r.source ∈ namesOf cs) (ht : r.target ∈ namesOf cs) :
    adjP cs rels r.source r.target :=
  Finset.mem_filter.2 ⟨ht, r, hr, ⟨hs, ht⟩, Or.inl ⟨rfl, rfl⟩⟩

theorem subset_stepNbrs (cs : List Concept) (rels : List Rel) (S : Finset String) :
    S ⊆ stepNbrs cs rels S :=
  Finset.subset_union_left

theorem subset_iterate_stepNbrs (cs : List Concept) (rels : List Rel)
    (S : Finset String) : ∀ k, S ⊆ (stepNbrs cs rels)^[k] S := by
  intro k
  induction k with
  | zero => exact subset_refl S
  | succ n ih =>
    rw [Function.iterate_succ_apply']
    exact subset_trans ih (subset_stepNbrs cs rels _)

theorem mem_reachSet_self (cs : List Concept) (rels : List Rel) (x : String) :
    x ∈ reachSet cs rels x :=
  subset_iterate_stepNbrs cs rels {x} cs.length (Finset.mem_singleton_self x)

theorem reachSet_sound {cs : List Concept} {rels : List Rel} {x y : String}
    (h : y ∈ reachSet cs rels x) : Relation.ReflTransGen (adjP cs rels) x y := by
  have key : ∀ (k : Nat) (S : Finset String),
      (∀ s ∈ S, Relation.ReflTransGen (adjP cs rels) x s) →
      ∀ z ∈ (stepNbrs cs rels)^[k] S, Relation.ReflTransGen (adjP cs rels) x z := by
    intro k
    induction k with
    | zero => intro S hS z hz; exact hS z hz
    | succ n ih =>
      intro S hS z hz
      rw [Function.iterate_succ_apply] at hz
      refine ih (stepNbrs cs rels S) ?_ z hz
      intro s hs
      rcases Finset.mem_union.1 hs with hs | hs
      · exact hS s hs
      · rcases Finset.mem_biUnion.1 hs with ⟨t, ht, hadj⟩
        exact (hS t ht).tail hadj
  refine key cs.length {x} ?_ y h
  intro s hs
  rw [Finset.mem_singleton.1 hs]

theorem stepNbrs_subset_names {cs : List Concept} {rels : List Rel}
    {S : Finset String} (hS : S ⊆ namesOf cs) :
    stepNbrs cs rels S ⊆ namesOf cs := by
  intro z hz
  rcases Finset.mem_union.1 hz with hz | hz
  · exact hS hz
  · rcases Finset.mem_biUnion.1 hz with ⟨t, _, hadj⟩
    exact mem_nbrs_names hadj

theorem reachSet_subset_names {cs : List Concept} {rels : List Rel} {x : String}
    (hx : x ∈ namesOf cs) : reachSet cs rels x ⊆ namesOf cs := by
  have : ∀ k, (stepNbrs cs rels)^[k] ({x} : Finset String) ⊆ namesOf cs := by
    intro k
    induction k with
    | zero => simpa using hx
    | succ n ih =>
      rw [Function.iterate_succ_apply']
      exact stepNbrs_subset_names ih
  exact this cs.length

theorem iterate_progress (f : Finset String → Finset String)
    (hincl : ∀ S, S ⊆ f S) :
    ∀ (k : Nat) (S0 : Finset String),
      f (f^[k] S0) = f^[k] S0 ∨ S0.card + k ≤ (f^[k] S0).card := by
  intro k
  induction k with
  | zero => intro S0; right; simp
  | succ n ih =>
    intro S0
    rcases ih S0 with hfix | hcard
    · left
      rw [Function.iterate_succ_apply', hfix, hfix]
    · by_cases h : f (f^[n] S0) = f^[n] S0
      · left
        rw [Function.iterate_succ_apply', h, h]
      · right
        have hss : f^[n] S0 ⊂ f (f^[n] S0) :=
          Finset.ssubset_iff_subset_ne.2 ⟨hincl _, Ne.symm h⟩
        have hlt := Finset.card_lt_card hss
        rw [Function.iterate_succ_apply']
        omega

theorem namesOf_card_le (cs : List Concept) : (namesOf cs).card ≤ cs.length := by
  calc (namesOf cs).card ≤ (cs.map (·.name)).length := List.toFinset_card_le _
  _ = cs.length := List.length_map _ _

theorem reachSet_fixpoint {cs : List Concept} {rels : List Rel} {x : String}
    (hx : x ∈ namesOf cs) :
    stepNbrs cs rels (reachSet cs rels x) = reachSet cs rels x := by
  rcases iterate_progress (stepNbrs cs rels) (subset_stepNbrs cs rels) cs.length {x}
    with h | h
  · exact h
  · exfalso
    have hsub : (stepNbrs cs rels)^[cs.length] ({x} : Finset String) ⊆ namesOf cs :=
      reachSet_subset_names hx
    have hcard := Finset.card_le_card hsub
    have hnames := namesOf_card_le cs
    simp only [Finset.card_singleton] at h
    omega

theorem reachSet_complete {cs : List Concept} {rels : List Rel} {x y : String}
    (hx : x ∈ namesOf cs) (h : Relation.ReflTransGen (adjP cs rels) x y) :
    y ∈ reachSet cs rels x := by
  induction h with
  | refl => exact mem_reachSet_self cs rels x
  | tail _ hbc ih =>
    rw [← reachSet_fixpoint hx]
    exact Finset.mem_union_right _ (Finset.mem_biUnion.2 ⟨_, ih, hbc⟩)

/-- Two reachability classes that intersect are equal. -/
theorem reachSet_eq_of_inter {cs : List Concept} {rels : List Rel} {x y z : String}
    (hx : x ∈ namesOf cs) (hy : y ∈ namesOf cs)
    (hzx : z ∈ reachSet cs rels x) (hzy : z ∈ reachSet cs rels y) :
    reachSet cs rels x = reachSet cs rels y := by
  have hsymm : Symmetric (Relation.ReflTransGen (adjP cs rels)) :=
    Relation.ReflTransGen.symmetric fun _ _ h => adjP_symm h
  have hxy : Relation.ReflTransGen (adjP cs rels) x y :=
    (reachSet_sound hzx).trans (hsymm (reachSet_sound hzy))
  apply Finset.Subset.antisymm
  · intro w hw
    exact reachSet_complete hy ((hsymm hxy).trans (reachSet_sound hw))
  · intro w hw
    exact reachSet_complete hx (hxy.trans (reachSet_sound hw))

/-- The folding function of `componentsOf`. -/
def compStep (cs : List Concept) (rels : List Rel)
    (comps : List (Finset String)) (c : Concept) : List (Finset String) :=
  if comps.any (fun S => decide (c.name ∈ S)) then comps
  else comps ++ [reachSet cs rels c.name]

theorem componentsOf_eq_foldl (cs : List Concept) (rels : List Rel) :
    componentsOf cs rels = cs.foldl (compStep cs rels) [] := rfl

theorem compStep_extends {cs : List Concept} {rels : List Rel} :
    ∀ (l : List Concept) (acc : List (Finset String)) (S : Finset String),
      S ∈ acc → S ∈ l.foldl (compStep cs rels) acc := by
  intro l
  induction l with
  | nil => intro acc S h; exact h
  | cons c t ih =>
    intro acc S h
    apply ih
    unfold compStep
    split
    · exact h
    · exact List.mem_append_left _ h

theorem compStep_rep {cs : List Concept} {rels : List Rel} :
    ∀ (l : List Concept) (acc : List (Finset String)),
      (∀ S ∈ acc, ∃ c ∈ cs, S = reachSet cs rels c.name) →
      (∀ c ∈ l, c ∈ cs) →
      ∀ S ∈ l.foldl (compStep cs rels) acc, ∃ c ∈ cs, S = reachSet cs rels c.name := by
  intro l
  induction l with
  | nil => intro acc hacc _ S hS; exact hacc S hS
  | cons c t ih =>
    intro acc hacc hl S hS
    refine ih (compStep cs rels acc c) ?_ (fun x hx => hl x (List.mem_cons_of_mem c hx)) S hS
    intro T hT
    unfold compStep at hT
    split at hT
    · exact hacc T hT
    · rcases List.mem_append.1 hT with h | h
      · exact hacc T h
      · exact ⟨c, hl c (List.mem_cons_self c t), (List.mem_singleton.1 h).symm ▸ rfl⟩

theorem compStep_covers {cs : List Concept} {rels : List Rel} :
    ∀ (l : List Concept) (acc : List (Finset String)),
      ∀ c ∈ l, ∃ S ∈ l.foldl (compStep cs rels) acc, c.name ∈ S := by
  intro l
  induction l with
  | nil => intro acc c hc; exact absurd hc (List.not_mem_nil c)
  | cons d t ih =>
    intro acc c hc
    rcases List.mem_cons.1 hc with h | h
    · subst h
      by_cases hin : acc.any (fun S => decide (c.name ∈ S))
      · rcases List.any_eq_true.1 hin with ⟨S, hS, hmem⟩
        exact ⟨S, compStep_extends t _ S (by unfold compStep; rw [if_pos hin]; exact hS),
          of_decide_eq_true hmem⟩
      · refine ⟨reachSet cs rels c.name, ?_, mem_reachSet_self cs rels c.name⟩
        apply compStep_extends t
        unfold compStep
        rw [if_neg hin]
        exact List.mem_append_right _ (List.mem_singleton_self _)
    · exact ih (compStep cs rels acc d) c h

theorem componentsOf_rep (cs : List Concept) (rels : List Rel) :
    ∀ S ∈ componentsOf cs rels, ∃ c ∈ cs, S = reachSet cs rels c.name := by
  rw [componentsOf_eq_foldl]
  exact compStep_rep cs [] (fun S hS => absurd hS (List.not_mem_nil S)) (fun c hc => hc)

theorem componentsOf_covers (cs : List Concept) (rels : List Rel) :
    ∀ c ∈ cs, ∃ S ∈ componentsOf cs rels, c.name ∈ S := by
  rw [componentsOf_eq_foldl]
  exact fun c hc => compStep_covers cs [] c hc

theorem componentsOf_mem_names {cs : List Concept} {rels : List Rel}
    {S : Finset String} (hS : S ∈ componentsOf cs rels) : S ⊆ namesOf cs := by
  rcases componentsOf_rep cs rels S hS with ⟨c, hc, rfl⟩
  exact reachSet_subset_names (by
    simp only [namesOf, List.mem_toFinset, List.mem_map]
    exact ⟨c, hc, rfl⟩)

theorem conceptsIn_component_ne_nil {cs : List Concept} {rels : List Rel}
    {S : Finset String} (hS : S ∈ componentsOf cs rels) : conceptsIn cs S ≠ [] := by
  rcases componentsOf_rep cs rels S hS with ⟨c, hc, rfl⟩
  have : c ∈ conceptsIn cs (reachSet cs rels c.name) :=
    List.mem_filter.2 ⟨hc, by simpa using mem_reachSet_self cs rels c.name⟩
  exact List.ne_nil_of_mem this

theorem ite_choice {α : Type} (p : Prop) [Decidable p] (x y : α) :
    (if p then y else x) = x ∨ (if p then y else x) = y := by
  by_cases h : p
  · rw [if_pos h]
    exact Or.inr rfl
  · rw [if_neg h]
    exact Or.inl rfl

/-- A fold by a binary choice function stays inside the candidate list. -/
theorem foldl_choice_mem {α : Type} (g : α → α → α)
    (hg : ∀ x y, g x y = x ∨ g x y = y) :
    ∀ (l : List α) (b : α), l.foldl g b ∈ b :: l := by
  intro l
  induction l with
  | nil => intro b; exact List.mem_singleton_self b
  | cons c t ih =>
    intro b
    rcases hg b c with h | h
    · rcases List.mem_cons.1 (ih (g b c)) with h' | h'
      · rw [List.foldl_cons]
        rw [h'] at *
        rw [h]
        exact List.mem_cons_self b _
      · exact List.mem_cons_of_mem b (List.mem_cons_of_mem c h')
    · rcases List.mem_cons.1 (ih (g b c)) with h' | h'
      · rw [List.foldl_cons, h', h]
        exact List.mem_cons_of_mem b (List.mem_cons_self c t)
      · exact List.mem_cons_of_mem b (List.mem_cons_of_mem c h')

theorem mainComp_mem {comps : List (Finset String)} (h : comps ≠ []) :
    mainComp comps ∈ comps := by
  match comps, h with
  | S :: t, _ =>
    show t.foldl (fun b c => if b.card < c.card then c else b) S ∈ S :: t
    exact foldl_choice_mem (fun b c => if b.card < c.card then c else b)
      (fun x y => ite_choice (x.card < y.card) x y) t S

theorem maxByImp_spec {l : List Concept} (h : l ≠ []) :
    ∃ c ∈ l, maxByImp l = some c := by
  match l, h with
  | c :: t, _ =>
    have heq : maxByImp (c :: t) =
        some (t.foldl (fun b g => if b.importance < g.importance then g else b) c) := rfl
    refine ⟨t.foldl (fun b g => if b.importance < g.importance then g else b) c, ?_, heq⟩
    exact foldl_choice_mem (fun b g => if b.importance < g.importance then g else b)
      (fun x y => ite_choice (x.importance < y.importance) x y) t c

theorem name_mem_namesOf {cs : List Concept} {c : Concept} (h : c ∈ cs) :
    c.name ∈ namesOf cs := by
  simp only [namesOf, List.mem_toFinset, List.mem_map]
  exact ⟨c, h, rfl⟩

theorem mem_conceptsIn {cs : List Concept} {S : Finset String} {c : Concept}
    (h : c ∈ conceptsIn cs S) : c ∈ cs ∧ c.name ∈ S := by
  rcases List.mem_filter.1 h with ⟨h1, h2⟩
  exact ⟨h1, by simpa using h2⟩

/-- Every state of the best-pair fold is the initial state or records the name
pair and similarity of some candidate pair whose two concepts both carry
embeddings. -/
theorem bestPair_foldl_cases :
    ∀ (l : List (Concept × Concept)) (st : Option String × Option String × ℝ),
      l.foldl bestPairStep st = st ∨
      ∃ p ∈ l, ∃ e1 e2, p.1.embedding = some e1 ∧ p.2.embedding = some e2 ∧
        l.foldl bestPairStep st =
          (some p.1.name, some p.2.name, cosine_similarity e1 e2) := by
  intro l
  induction l with
  | nil => intro st; exact Or.inl rfl
  | cons a t ih =>
    intro st
    rw [List.foldl_cons]
    rcases ih (bestPairStep st a) with h | ⟨p, hp, e1, e2, h1, h2, heq⟩
    · rw [h]
      rcases ha1 : a.1.embedding with _ | e1
      · left
        simp [bestPairStep, ha1]
      · rcases ha2 : a.2.embedding with _ | e2
        · left
          simp [bestPairStep, ha1, ha2]
        · by_cases hlt : st.2.2 < cosine_similarity e1 e2
          · right
            exact ⟨a, List.mem_cons_self a t, e1, e2, ha1, ha2,
              by simp [bestPairStep, ha1, ha2, hlt]⟩
          · left
            simp [bestPairStep, ha1, ha2, hlt]
    · right
      exact ⟨p, List.mem_cons_of_mem a hp, e1, e2, h1, h2, heq⟩

theorem bestPair_some {csC csM : List Concept} {s t' : String} {v : ℝ}
    (h : bestPair csC csM = (some s, some t', v)) :
    ∃ c1 ∈ csC, ∃ c2 ∈ csM, s = c1.name ∧ t' = c2.name := by
  rcases bestPair_foldl_cases (csC.flatMap fun c1 => csM.map fun c2 => (c1, c2))
      (none, none, -1) with hc | ⟨p, hp, e1, e2, _, _, heq⟩
  · rw [bestPair, hc] at h
    simp at h
  · rw [bestPair, heq] at h
    rcases List.mem_flatMap.1 hp with ⟨c1, hc1, hmem⟩
    rcases List.mem_map.1 hmem with ⟨c2, hc2, rfl⟩
    simp only [Prod.mk.injEq, Option.some.injEq] at h
    exact ⟨c1, hc1, c2, hc2, h.1.symm, h.2.1.symm⟩

/-- For non-empty candidate sets the bridge synthesis always yields one
relationship whose source lies in the minor component and whose target lies in
the main component (the fallback path included). -/
theorem mkBridge_spec {cs : List Concept} {mainC comp : Finset String}
    (hcomp : conceptsIn cs comp ≠ []) (hmain : conceptsIn cs mainC ≠ []) :
    ∃ r, mkBridge cs mainC comp = some r ∧ r.source ∈ comp ∧ r.target ∈ mainC ∧
      r.inferred = true ∧ r.type = "related-to" := by
  unfold mkBridge
  set bp := bestPair (conceptsIn cs comp) (conceptsIn cs mainC) with hbp
  by_cases htr : truthyName bp.1 ∧ truthyName bp.2.1
  · rw [if_pos htr]
    rcases htr with ⟨h1, h2⟩
    obtain ⟨s, hs⟩ : ∃ s, bp.1 = some s := by
      cases hh : bp.1
      · rw [hh] at h1
        simp [truthyName] at h1
      · exact ⟨_, rfl⟩
    obtain ⟨t', ht'⟩ : ∃ t', bp.2.1 = some t' := by
      cases hh : bp.2.1
      · rw [hh] at h2
        simp [truthyName] at h2
      · exact ⟨_, rfl⟩
    have hsplit : bestPair (conceptsIn cs comp) (conceptsIn cs mainC) =
        (some s, some t', bp.2.2) := by
      rw [← hs, ← ht', hbp]
    rcases bestPair_some hsplit with ⟨c1, hc1, c2, hc2, rfl, rfl⟩
    refine ⟨_, rfl, ?_, ?_, rfl, rfl⟩
    · rw [hs]
      simpa using (mem_conceptsIn hc1).2
    · rw [ht']
      simpa using (mem_conceptsIn hc2).2
  · rw [if_neg htr]
    rcases maxByImp_spec hcomp with ⟨sc, hsc, hmax1⟩
    rcases maxByImp_spec hmain with ⟨tc, htc, hmax2⟩
    rw [hmax1, hmax2]
    exact ⟨_, rfl, (mem_conceptsIn hsc).2, (mem_conceptsIn htc).2, rfl, rfl⟩

theorem bridgeRels_cover {cs : List Concept} {rels : List Rel}
    (hlen : 1 < (componentsOf cs rels).length)
    {S : Finset String} (hS : S ∈ componentsOf cs rels)
    (hSne : S ≠ mainComp (componentsOf cs rels)) :
    ∃ r ∈ bridgeRels cs rels, r.source ∈ S ∧
      r.target ∈ mainComp (componentsOf cs rels) ∧ r.inferred = true := by
  have hmm : mainComp (componentsOf cs rels) ∈ componentsOf cs rels :=
    mainComp_mem (by
      intro h
      rw [h] at hlen
      simp at hlen)
  obtain ⟨r, hmk, hsrc, htgt, hinf, _⟩ := mkBridge_spec
    (conceptsIn_component_ne_nil hS) (conceptsIn_component_ne_nil hmm)
  refine ⟨r, ?_, hsrc, htgt, hinf⟩
  unfold bridgeRels
  rw [if_pos hlen]
  exact List.mem_filterMap.2 ⟨S, List.mem_filter.2 ⟨hS, by simp [hSne]⟩, hmk⟩

theorem build_snd {cs : List Concept} {rels : List Rel} (h2 : 2 ≤ cs.length) :
    (buildHierarchyAndConnectivity cs rels).2 =
      rels ++ bridgeRels cs rels ++ (isoResult cs rels).1 := by
  unfold buildHierarchyAndConnectivity
  rw [if_neg (by
      simp only [List.isEmpty_iff]
      intro h
      rw [h] at h2
      simp at h2),
    if_neg (by omega)]

theorem compStep_stable {cs : List Concept} {rels : List Rel} :
    ∀ (l : List Concept) (acc : List (Finset String)),
      (∀ c ∈ l, ∃ S ∈ acc, c.name ∈ S) →
      l.foldl (compStep cs rels) acc = acc := by
  intro l
  induction l with
  | nil => intro acc _; rfl
  | cons c t ih =>
    intro acc hacc
    rw [List.foldl_cons]
    obtain ⟨S, hS, hcS⟩ := hacc c (List.mem_cons_self c t)
    have hany : acc.any (fun S => decide (c.name ∈ S)) = true :=
      List.any_eq_true.2 ⟨S, hS, by simpa using hcS⟩
    have hstep : compStep cs rels acc c = acc := by
      unfold compStep
      rw [if_pos hany]
    rw [hstep]
    exact ih acc fun d hd => hacc d (List.mem_cons_of_mem c hd)

/-- After building, every concept's name is reachable from every other's in
the undirected graph of the returned relationship list. -/
theorem build_connects {cs : List Concept} {rels : List Rel} (h2 : 2 ≤ cs.length) :
    ∀ c ∈ cs, ∀ c' ∈ cs,
      Relation.ReflTransGen (adjP cs ((buildHierarchyAndConnectivity cs rels).2))
        c.name c'.name := by
  have hsnd := @build_snd cs rels h2
  set rels' := (buildHierarchyAndConnectivity cs rels).2 with hrels'
  have hsub : ∀ r ∈ rels, r ∈ rels' := by
    rw [hsnd]
    intro r hr
    exact List.mem_append_left _ (List.mem_append_left _ hr)
  have hsubB : ∀ r ∈ bridgeRels cs rels, r ∈ rels' := by
    rw [hsnd]
    intro r hr
    exact List.mem_append_left _ (List.mem_append_right _ hr)
  have hlift : ∀ {x y : String}, Relation.ReflTransGen (adjP cs rels) x y →
      Relation.ReflTransGen (adjP cs rels') x y :=
    fun h => Relation.ReflTransGen.mono (fun _ _ hadj => adjP_mono hsub hadj) h
  have hsymm : Symmetric (Relation.ReflTransGen (adjP cs rels')) :=
    Relation.ReflTransGen.symmetric fun _ _ h => adjP_symm h
  -- a root concept from which everything is reachable
  suffices hroot : ∃ m ∈ cs, ∀ c ∈ cs,
      Relation.ReflTransGen (adjP cs rels') (Concept.name m) c.name by
    rcases hroot with ⟨m, _, hm⟩
    intro c hc c' hc'
    exact (hsymm (hm c hc)).trans (hm c' hc')
  by_cases hone : 1 < (componentsOf cs rels).length
  · -- bridging case: root at the representative of the main component
    have hcompsne : componentsOf cs rels ≠ [] := by
      intro h
      rw [h] at hone
      simp at hone
    have hmainmem := mainComp_mem hcompsne
    obtain ⟨cm, hcm, hmeq⟩ := componentsOf_rep cs rels _ hmainmem
    refine ⟨cm, hcm, ?_⟩
    intro c hc
    obtain ⟨S, hS, hcS⟩ := componentsOf_covers cs rels c hc
    obtain ⟨cr, hcr, hSeq⟩ := componentsOf_rep cs rels S hS
    by_cases hSmain : S = mainComp (componentsOf cs rels)
    · have hcmem : c.name ∈ reachSet cs rels cm.name := by
        rw [← hmeq, ← hSmain]
        exact hcS
      exact hlift (reachSet_sound hcmem)
    · obtain ⟨r, hrB, hrs, hrt, _⟩ := bridgeRels_cover hone hS hSmain
      have hrmem : r ∈ rels' := hsubB r hrB
      have hSsub : S ⊆ namesOf cs := componentsOf_mem_names hS
      have hmainsub : mainComp (componentsOf cs rels) ⊆ namesOf cs :=
        componentsOf_mem_names hmainmem
      -- cm.name ⟶* r.target inside the main component (original relationships)
      have h1 : Relation.ReflTransGen (adjP cs rels') cm.name r.target := by
        apply hlift
        apply reachSet_sound
        rw [hmeq] at hrt
        exact hrt
      -- the bridge edge
      have hedge : adjP cs rels' r.source r.target :=
        adjP_of_rel hrmem (hSsub hrs) (hmainsub hrt)
      -- r.source ⟶* c.name inside S (original relationships, via the class rep)
      have h3 : Relation.ReflTransGen (adjP cs rels') r.source c.name := by
        have hsrc : r.source ∈ reachSet cs rels cr.name := hSeq ▸ hrs
        have hcn : c.name ∈ reachSet cs rels cr.name := hSeq ▸ hcS
        exact (hsymm (hlift (reachSet_sound hsrc))).trans (hlift (reachSet_sound hcn))
      exact (h1.trans (hsymm (Relation.ReflTransGen.single hedge))).trans h3
  · -- single-component case: everything already mutually reachable
    have hcs0 : ∃ c0, c0 ∈ cs := by
      cases cs with
      | nil => simp at h2
      | cons c0 rest => exact ⟨c0, List.mem_cons_self c0 rest⟩
    rcases hcs0 with ⟨c0, hc0⟩
    obtain ⟨S0, hS0, _⟩ := componentsOf_covers cs rels c0 hc0
    have hcompsne : componentsOf cs rels ≠ [] := List.ne_nil_of_mem hS0
    have hlen1 : (componentsOf cs rels).length = 1 := by
      have := List.length_pos.2 hcompsne
      omega
    obtain ⟨S, hSeq'⟩ := List.length_eq_one.1 hlen1
    obtain ⟨cr, hcr, hSeq⟩ := componentsOf_rep cs rels S (by
      rw [hSeq']
      exact List.mem_singleton_self S)
    refine ⟨cr, hcr, ?_⟩
    intro c hc
    obtain ⟨T, hT, hcT⟩ := componentsOf_covers cs rels c hc
    have hTS : T = S := by
      rw [hSeq'] at hT
      exact List.mem_singleton.1 hT
    have : c.name ∈ reachSet cs rels cr.name := by
      rw [← hSeq, ← hTS]
      exact hcT
    exact hlift (reachSet_sound this)

/-- C1: for every concept list with at least two concepts, each carrying a
non-degenerate embedding, and every relationship list, the undirected graph
over the full concept set formed by the relationship list returned by
`build_hierarchy_and_connectivity` has exactly one connected component. -/
theorem build_single_component (cs : List Concept) (rels : List Rel)
    (h2 : 2 ≤ cs.length)
    (_hemb : ∀ c ∈ cs, ∃ e, c.embedding = some e ∧ l2norm e ≠ 0) :
    (componentsOf cs ((buildHierarchyAndConnectivity cs rels).2)).length = 1 := by
  set rels' := (buildHierarchyAndConnectivity cs rels).2 with hrels'
  have hconn := @build_connects cs rels h2
  rw [← hrels'] at hconn
  match cs, h2, hconn with
  | c0 :: rest, h2, hconn =>
    have hcover : ∀ c ∈ (c0 :: rest), c.name ∈ reachSet (c0 :: rest) rels' c0.name :=
      fun c hc => reachSet_complete (name_mem_namesOf (List.mem_cons_self c0 rest))
        (hconn c0 (List.mem_cons_self c0 rest) c hc)
    rw [componentsOf_eq_foldl, List.foldl_cons]
    have hstep : compStep (c0 :: rest) rels' [] c0 =
        [reachSet (c0 :: rest) rels' c0.name] := by
      unfold compStep
      simp
    rw [hstep, compStep_stable rest _ (fun c hcx =>
      ⟨reachSet (c0 :: rest) rels' c0.name, List.mem_singleton_self _,
        hcover c (List.mem_cons_of_mem c0 hcx)⟩)]
    rfl

/-- Two embedded concepts used by the connectivity witness. -/
noncomputable def conW1 : Concept := { name := "W1", importance := 0.4, embedding := some [1, 0] }

noncomputable def conW2 : Concept := { name := "W2", importance := 0.2, embedding := some [3, 4] }

/-- Witness for C1 at a concrete two-concept input with no relationships. -/
theorem build_single_component_witness :
    2 ≤ ([conW1, conW2] : List Concept).length ∧
    (∀ c ∈ ([conW1, conW2] : List Concept), ∃ e, c.embedding = some e ∧ l2norm e ≠ 0) ∧
    (componentsOf [conW1, conW2]
      ((buildHierarchyAndConnectivity [conW1, conW2] []).2)).length = 1 := by
  have hemb : ∀ c ∈ ([conW1, conW2] : List Concept),
      ∃ e, c.embedding = some e ∧ l2norm e ≠ 0 := by
    intro c hc
    rcases List.mem_cons.1 hc with h | h
    · refine ⟨[1, 0], by rw [h]; rfl, ?_⟩
      rw [l2norm_10]
      norm_num
    · rw [List.mem_singleton.1 h]
      refine ⟨[3, 4], rfl, ?_⟩
      rw [l2norm_34]
      norm_num
  exact ⟨by simp, hemb, build_single_component [conW1, conW2] [] (by simp) hemb⟩

end GraphTheorems

/-! ### Tier assignment (C2) -/

section TierTheorems

theorem argmaxIdxAux_spec :
    ∀ (l : List ℝ) (i bi : Nat) (bv : ℝ) (f : Nat → ℝ),
      (∀ k, k < l.length → l.getD k 0 = f (i + k)) → f bi = bv →
      bv ≤ f (argmaxIdxAux l i bi bv) ∧
      (∀ k, k < l.length → l.getD k 0 ≤ f (argmaxIdxAux l i bi bv)) ∧
      (argmaxIdxAux l i bi bv = bi ∨
        ∃ k, k < l.length ∧ argmaxIdxAux l i bi bv = i + k) := by
  intro l
  induction l with
  | nil =>
    intro i bi bv f _ hbv
    exact ⟨hbv ▸ le_refl _, fun k hk => absurd hk (by simp), Or.inl rfl⟩
  | cons v vs ih =>
    intro i bi bv f hf hbv
    have hv : v = f i := by simpa using hf 0 (by simp)
    have hshift : ∀ k, k < vs.length → vs.getD k 0 = f ((i + 1) + k) := by
      intro k hk
      have h := hf (k + 1) (by simp only [List.length_cons]; omega)
      simp only [List.getD_cons_succ] at h
      rw [h]
      ring_nf
    have hunf : argmaxIdxAux (v :: vs) i bi bv =
        if bv < v then argmaxIdxAux vs (i + 1) i v
        else argmaxIdxAux vs (i + 1) bi bv := rfl
    by_cases hlt : bv < v
    · have hrec := ih (i + 1) i v f hshift hv.symm
      rw [hunf, if_pos hlt]
      refine ⟨le_trans (le_of_lt hlt) (hv ▸ hrec.1), ?_, ?_⟩
      · intro k hk
        match k with
        | 0 =>
          simp only [List.getD_cons_zero]
          exact hv ▸ hrec.1
        | k + 1 =>
          simp only [List.getD_cons_succ]
          exact hrec.2.1 k (by simp only [List.length_cons] at hk; omega)
      · rcases hrec.2.2 with h | ⟨k, hk, h⟩
        · exact Or.inr ⟨0, by simp, by omega⟩
        · exact Or.inr ⟨k + 1, by simp only [List.length_cons]; omega, by omega⟩
    · have hrec := ih (i + 1) bi bv f hshift hbv
      rw [hunf, if_neg hlt]
      refine ⟨hrec.1, ?_, ?_⟩
      · intro k hk
        match k with
        | 0 =>
          simp only [List.getD_cons_zero]
          exact le_trans (not_lt.1 hlt) hrec.1
        | k + 1 =>
          simp only [List.getD_cons_succ]
          exact hrec.2.1 k (by simp only [List.length_cons] at hk; omega)
      · rcases hrec.2.2 with h | ⟨k, hk, h⟩
        · exact Or.inl h
        · exact Or.inr ⟨k + 1, by simp only [List.length_cons]; omega, by omega⟩

theorem argmaxIdx_spec (l : List ℝ) (hne : l ≠ []) :
    argmaxIdx l < l.length ∧
      ∀ j, j < l.length → l.getD j 0 ≤ l.getD (argmaxIdx l) 0 := by
  match l, hne with
  | v :: vs, _ =>
    have h := argmaxIdxAux_spec vs 1 0 v (fun j => (v :: vs).getD j 0)
      (fun k hk => by
        rw [Nat.add_comm 1 k]
        simp [List.getD_cons_succ])
      (by simp)
    have hlt : argmaxIdx (v :: vs) < (v :: vs).length := by
      show argmaxIdxAux vs 1 0 v < vs.length + 1
      rcases h.2.2 with he | ⟨k, hk, he⟩
      · omega
      · omega
    refine ⟨hlt, ?_⟩
    intro j hj
    match j with
    | 0 =>
      simp only [List.getD_cons_zero]
      exact h.1
    | k + 1 =>
      simp only [List.getD_cons_succ]
      exact h.2.1 k (by simp only [List.length_cons] at hj; omega)

theorem getD_map_importance (l : List Concept) (j : Nat) (hj : j < l.length) :
    (l.map (·.importance)).getD j 0 = (l.get ⟨j, hj⟩).importance := by
  rw [List.getD_eq_getElem?_getD, List.getElem?_map,
    List.getElem?_eq_getElem hj]
  rfl

theorem assignTiers_mem {cs : List Concept} {counts : String → Nat} {c' : Concept}
    (h : c' ∈ assignTiers cs counts) :
    c'.tier = some (if 0.7 < c'.importance ∨ 2 ≤ c'.connections.getD 0 then 1 else 2) := by
  rcases List.mem_map.1 h with ⟨c, _, rfl⟩
  rfl

theorem assignTiers_get {cs : List Concept} {counts : String → Nat} (j : Nat)
    (hj : j < (assignTiers cs counts).length) :
    ((assignTiers cs counts).get ⟨j, hj⟩).tier =
      some (if 0.7 < ((assignTiers cs counts).get ⟨j, hj⟩).importance ∨
        2 ≤ ((assignTiers cs counts).get ⟨j, hj⟩).connections.getD 0 then 1 else 2) :=
  assignTiers_mem (List.get_mem _ _ hj)

/-- C2: after `build_hierarchy_and_connectivity`, a concept gets tier 1 when
its importance exceeds 0.7 or its stored post-bridging connection count is at
least 2, tier 2 otherwise; when no concept satisfies the rule, exactly one
concept — one of globally maximal importance — is promoted to tier 1; and for
every non-empty input at least one concept ends with tier 1. -/
theorem build_tier_assignment (cs : List Concept) (rels : List Rel) (hne : cs ≠ []) :
    (∀ c ∈ (buildHierarchyAndConnectivity cs rels).1,
      (0.7 < c.importance ∨ 2 ≤ c.connections.getD 0) → c.tier = some 1) ∧
    ((∃ c ∈ (buildHierarchyAndConnectivity cs rels).1,
        0.7 < c.importance ∨ 2 ≤ c.connections.getD 0) →
      ∀ c ∈ (buildHierarchyAndConnectivity cs rels).1,
        ¬(0.7 < c.importance ∨ 2 ≤ c.connections.getD 0) → c.tier = some 2) ∧
    ((∀ c ∈ (buildHierarchyAndConnectivity cs rels).1,
        ¬(0.7 < c.importance ∨ 2 ≤ c.connections.getD 0)) →
      ∃ i : Fin (buildHierarchyAndConnectivity cs rels).1.length,
        ((buildHierarchyAndConnectivity cs rels).1.get i).tier = some 1 ∧
        (∀ c ∈ (buildHierarchyAndConnectivity cs rels).1,
          c.importance ≤ ((buildHierarchyAndConnectivity cs rels).1.get i).importance) ∧
        ∀ j : Fin (buildHierarchyAndConnectivity cs rels).1.length,
          j ≠ i → ((buildHierarchyAndConnectivity cs rels).1.get j).tier = some 2) ∧
    ∃ c ∈ (buildHierarchyAndConnectivity cs rels).1, c.tier = some 1 := by
  by_cases hlen1 : cs.length = 1
  · obtain ⟨c, rfl⟩ := List.length_eq_one.1 hlen1
    have hout : (buildHierarchyAndConnectivity [c] rels).1 =
        [{ c with tier := some 1, connections := some 0 }] := by
      unfold buildHierarchyAndConnectivity
      rw [if_neg (by simp), if_pos (by simp)]
      rfl
    rw [hout]
    refine ⟨?_, ?_, ?_, ?_⟩
    · intro x hx _
      rw [List.mem_singleton.1 hx]
    · rintro ⟨y, hy, hr⟩ x hx hnr
      rw [List.mem_singleton.1 hy] at hr
      rw [List.mem_singleton.1 hx] at hnr
      exact absurd hr hnr
    · intro _
      refine ⟨⟨0, by simp⟩, rfl, ?_, ?_⟩
      · intro x hx
        rw [List.mem_singleton.1 hx]
        exact le_refl _
      · intro j hj
        have hj1 : (j : Nat) < 1 := j.isLt
        refine absurd (Fin.ext ?_) hj
        show (j : Nat) = 0
        omega
    · exact ⟨_, List.mem_singleton_self _, rfl⟩
  · have h2 : 2 ≤ cs.length := by
      have := List.length_pos.2 hne
      omega
    have hout : (buildHierarchyAndConnectivity cs rels).1 =
        promoteIfNoTier1 (assignTiers cs (isoResult cs rels).2) := by
      unfold buildHierarchyAndConnectivity
      rw [if_neg (by
          simp only [List.isEmpty_iff]
          exact hne),
        if_neg hlen1]
    rw [hout]
    set cs' := assignTiers cs (isoResult cs rels).2 with hcs'
    have hlen' : cs'.length = cs.length := List.length_map _ _
    have hcs'nil : cs' ≠ [] := by
      intro h
      rw [h] at hlen'
      simp at hlen'
      omega
    have hcs'ne : ¬cs'.isEmpty = true := by
      simp only [List.isEmpty_iff]
      exact hcs'nil
    by_cases hcond : ∀ c ∈ cs', c.tier ≠ some 1
    · -- promotion path
      have hnorule : ∀ c ∈ cs',
          ¬(0.7 < c.importance ∨ 2 ≤ c.connections.getD 0) := by
        intro c hc hr
        have ht := assignTiers_mem hc
        rw [if_pos hr] at ht
        exact hcond c hc ht
      have hrule2 : ∀ c ∈ cs', c.tier = some 2 := by
        intro c hc
        have ht := assignTiers_mem hc
        rw [if_neg (hnorule c hc)] at ht
        exact ht
      have hmapne : cs'.map (·.importance) ≠ [] := by
        simp only [ne_eq, List.map_eq_nil_iff]
        exact hcs'nil
      obtain ⟨hilt0, hmax⟩ := argmaxIdx_spec (cs'.map (·.importance)) hmapne
      rw [List.length_map] at hilt0
      set i0 := argmaxIdx (cs'.map (·.importance)) with hi0
      have hget? : cs'.get? i0 = some (cs'.get ⟨i0, hilt0⟩) :=
        List.get?_eq_get hilt0
      have hpout : promoteIfNoTier1 cs' =
          cs'.set i0 { cs'.get ⟨i0, hilt0⟩ with tier := some 1 } := by
        unfold promoteIfNoTier1
        rw [if_pos ⟨hcond, hcs'ne⟩, ← hi0, hget?]
      rw [hpout]
      set cNew := { cs'.get ⟨i0, hilt0⟩ with tier := some 1 } with hcNew
      have hlenset : (cs'.set i0 cNew).length = cs'.length := List.length_set cs' i0 cNew
      have hmemNew : ∀ c ∈ cs'.set i0 cNew, c = cNew ∨ c ∈ cs' := by
        intro c hc
        rcases List.mem_or_eq_of_mem_set hc with h | h
        · exact Or.inr h
        · exact Or.inl h
      have hnorule' : ∀ c ∈ cs'.set i0 cNew,
          ¬(0.7 < c.importance ∨ 2 ≤ c.connections.getD 0) := by
        intro c hc
        rcases hmemNew c hc with rfl | h
        · have := hnorule _ (List.get_mem cs' i0 hilt0)
          simpa [hcNew] using this
        · exact hnorule c h
      have hi0lt : i0 < (cs'.set i0 cNew).length := by
        rw [hlenset]
        exact hilt0
      have hgeti : (cs'.set i0 cNew).get ⟨i0, hi0lt⟩ = cNew := by
        rw [List.get_eq_getElem]
        exact List.getElem_set_self hi0lt
      refine ⟨?_, ?_, ?_, ?_⟩
      · intro c hc hr
        exact absurd hr (hnorule' c hc)
      · rintro ⟨y, hy, hr⟩
        exact absurd hr (hnorule' y hy)
      · intro _
        refine ⟨⟨i0, hi0lt⟩, ?_, ?_, ?_⟩
        · rw [hgeti]
        · intro c hc
          have hgi : ((cs'.set i0 cNew).get ⟨i0, hi0lt⟩).importance =
              (cs'.get ⟨i0, hilt0⟩).importance := by
            rw [hgeti]
          rw [hgi]
          rcases hmemNew c hc with rfl | h
          · exact le_of_eq rfl
          · obtain ⟨⟨j, hj⟩, rfl⟩ := List.mem_iff_get.1 h
            have hj' := hmax j (by rw [List.length_map]; exact hj)
            rw [getD_map_importance cs' j hj, getD_map_importance cs' i0 hilt0] at hj'
            exact hj'
        · intro j hj
          have hjv : (j : Nat) ≠ i0 := by
            intro h
            exact hj (Fin.ext h)
          have hjlt : (j : Nat) < cs'.length := by
            have hj2 := j.2
            omega
          have hjlt' : (j : Nat) < (cs'.set i0 cNew).length := j.2
          have hset : (cs'.set i0 cNew)[(j : Nat)] = cs'[(j : Nat)] :=
            @List.getElem_set_ne _ cs' i0 (j : Nat) (Ne.symm hjv) cNew hjlt'
          have hgj : (cs'.set i0 cNew).get j = cs'.get ⟨j, hjlt⟩ := by
            rw [List.get_eq_getElem, List.get_eq_getElem]
            exact hset
          rw [hgj]
          exact hrule2 _ (List.get_mem cs' j hjlt)
      · refine ⟨cNew, ?_, rfl⟩
        have hm := List.get_mem (cs'.set i0 cNew) i0 hi0lt
        rw [hgeti] at hm
        exact hm
    · -- no promotion: some concept already has tier 1
      push_neg at hcond
      obtain ⟨c1, hc1, ht1⟩ := hcond
      have hpout : promoteIfNoTier1 cs' = cs' := by
        unfold promoteIfNoTier1
        rw [if_neg]
        intro ⟨h1, _⟩
        exact h1 c1 hc1 ht1
      rw [hpout]
      have hr1 : 0.7 < c1.importance ∨ 2 ≤ c1.connections.getD 0 := by
        by_contra hnr
        have ht := assignTiers_mem hc1
        rw [if_neg hnr] at ht
        rw [ht1] at ht
        simp at ht
      refine ⟨?_, ?_, ?_, ?_⟩
      · intro c hc hr
        have ht := assignTiers_mem hc
        rw [if_pos hr] at ht
        exact ht
      · rintro _ c hc hnr
        have ht := assignTiers_mem hc
        rw [if_neg hnr] at ht
        exact ht
      · intro hall
        exact absurd hr1 (hall c1 hc1)
      · exact ⟨c1, hc1, ht1⟩

/-- Witness for C2 at a concrete one-concept input. -/
theorem build_tier_assignment_witness :
    ([({ name := "solo", importance := 0.2 } : Concept)] : List Concept) ≠ [] ∧
    ((∀ c ∈ (buildHierarchyAndConnectivity
        [({ name := "solo", importance := 0.2 } : Concept)] []).1,
      (0.7 < c.importance ∨ 2 ≤ c.connections.getD 0) → c.tier = some 1) ∧
    ((∃ c ∈ (buildHierarchyAndConnectivity
        [({ name := "solo", importance := 0.2 } : Concept)] []).1,
        0.7 < c.importance ∨ 2 ≤ c.connections.getD 0) →
      ∀ c ∈ (buildHierarchyAndConnectivity
          [({ name := "solo", importance := 0.2 } : Concept)] []).1,
        ¬(0.7 < c.importance ∨ 2 ≤ c.connections.getD 0) → c.tier = some 2) ∧
    ((∀ c ∈ (buildHierarchyAndConnectivity
        [({ name := "solo", importance := 0.2 } : Concept)] []).1,
        ¬(0.7 < c.importance ∨ 2 ≤ c.connections.getD 0)) →
      ∃ i : Fin (buildHierarchyAndConnectivity
          [({ name := "solo", importance := 0.2 } : Concept)] []).1.length,
        ((buildHierarchyAndConnectivity
          [({ name := "solo", importance := 0.2 } : Concept)] []).1.get i).tier = some 1 ∧
        (∀ c ∈ (buildHierarchyAndConnectivity
            [({ name := "solo", importance := 0.2 } : Concept)] []).1,
          c.importance ≤ ((buildHierarchyAndConnectivity
            [({ name := "solo", importance := 0.2 } : Concept)] []).1.get i).importance) ∧
        ∀ j : Fin (buildHierarchyAndConnectivity
            [({ name := "solo", importance := 0.2 } : Concept)] []).1.length,
          j ≠ i → ((buildHierarchyAndConnectivity
            [({ name := "solo", importance := 0.2 } : Concept)] []).1.get j).tier = some 2) ∧
    ∃ c ∈ (buildHierarchyAndConnectivity
        [({ name := "solo", importance := 0.2 } : Concept)] []).1, c.tier = some 1) :=
  ⟨by simp,
    build_tier_assignment [({ name := "solo", importance := 0.2 } : Concept)] [] (by simp)⟩

end TierTheorems

/-! ### Bridge selection (C3, C4) -/

section BridgeTheorems

theorem bestPairStep_val_mono (st : Option String × Option String × ℝ)
    (a : Concept × Concept) : st.2.2 ≤ (bestPairStep st a).2.2 := by
  unfold bestPairStep
  rcases ha : a.1.embedding with _ | e1
  · simp [ha]
  · rcases hb : a.2.embedding with _ | e2
    · simp [ha, hb]
    · simp only [ha, hb]
      by_cases hlt : st.2.2 < cosine_similarity e1 e2
      · rw [if_pos hlt]
        exact le_of_lt hlt
      · rw [if_neg hlt]

theorem bestPair_foldl_val_mono :
    ∀ (l : List (Concept × Concept)) (st : Option String × Option String × ℝ),
      st.2.2 ≤ (l.foldl bestPairStep st).2.2 := by
  intro l
  induction l with
  | nil => intro st; exact le_refl _
  | cons a t ih =>
    intro st
    rw [List.foldl_cons]
    exact le_trans (bestPairStep_val_mono st a) (ih (bestPairStep st a))

theorem bestPair_foldl_dominates :
    ∀ (l : List (Concept × Concept)) (st : Option String × Option String × ℝ)
      (p : Concept × Concept), p ∈ l → ∀ (e1 e2 : List ℝ),
      p.1.embedding = some e1 → p.2.embedding = some e2 →
      cosine_similarity e1 e2 ≤ (l.foldl bestPairStep st).2.2 := by
  intro l
  induction l with
  | nil => intro st p hp; exact absurd hp (List.not_mem_nil p)
  | cons a t ih =>
    intro st p hp e1 e2 h1 h2
    rw [List.foldl_cons]
    rcases List.mem_cons.1 hp with rfl | hp'
    · refine le_trans ?_ (bestPair_foldl_val_mono t (bestPairStep st p))
      unfold bestPairStep
      simp only [h1, h2]
      by_cases hlt : st.2.2 < cosine_similarity e1 e2
      · rw [if_pos hlt]
      · rw [if_neg hlt]
        exact le_of_not_lt hlt
    · exact ih (bestPairStep st a) p hp' e1 e2 h1 h2

/-- With embeddings available and some candidate pair of similarity above the
initial `-1`, the bridge synthesis takes the best-pair path: exactly the first
similarity-maximal pair is chosen, with the documented type, strength formula,
and `inferred` flag. -/
theorem mkBridge_best {cs : List Concept} {mainC comp : Finset String}
    (hnames : ∀ c ∈ cs, c.name ≠ "")
    (hgt : ∃ c1 ∈ conceptsIn cs comp, ∃ c2 ∈ conceptsIn cs mainC, ∃ e1 e2,
      c1.embedding = some e1 ∧ c2.embedding = some e2 ∧
      -1 < cosine_similarity e1 e2) :
    ∃ r, mkBridge cs mainC comp = some r ∧
      ∃ c1 ∈ conceptsIn cs comp, ∃ c2 ∈ conceptsIn cs mainC, ∃ e1 e2,
        c1.embedding = some e1 ∧ c2.embedding = some e2 ∧
        r = { source := c1.name, target := c2.name, type := "related-to",
              strength := max 0.5 (cosine_similarity e1 e2 * 0.8),
              description := "Bridge connection (component merge)",
              inferred := true } ∧
        ∀ d1 ∈ conceptsIn cs comp, ∀ d2 ∈ conceptsIn cs mainC, ∀ f1 f2,
          d1.embedding = some f1 → d2.embedding = some f2 →
          cosine_similarity f1 f2 ≤ cosine_similarity e1 e2 := by
  obtain ⟨b1, hb1, b2, hb2, f1, f2, hf1, hf2, hfgt⟩ := hgt
  have hpairmem : (b1, b2) ∈ (conceptsIn cs comp).flatMap
      fun c1 => (conceptsIn cs mainC).map fun c2 => (c1, c2) :=
    List.mem_flatMap.2 ⟨b1, hb1, List.mem_map.2 ⟨b2, hb2, rfl⟩⟩
  rcases bestPair_foldl_cases ((conceptsIn cs comp).flatMap
      fun c1 => (conceptsIn cs mainC).map fun c2 => (c1, c2)) (none, none, -1)
    with hinit | ⟨p, hp, e1, e2, he1, he2, heq⟩
  · exfalso
    have hdom := bestPair_foldl_dominates _ (none, none, -1) (b1, b2) hpairmem f1 f2 hf1 hf2
    rw [hinit] at hdom
    exact absurd (lt_of_lt_of_le hfgt hdom) (by norm_num)
  · have hbp : bestPair (conceptsIn cs comp) (conceptsIn cs mainC) =
        (some p.1.name, some p.2.name, cosine_similarity e1 e2) := heq
    rcases List.mem_flatMap.1 hp with ⟨c1, hc1, hmem⟩
    rcases List.mem_map.1 hmem with ⟨c2, hc2, hpeq⟩
    have hp1 : p.1 = c1 := by rw [← hpeq]
    have hp2 : p.2 = c2 := by rw [← hpeq]
    subst hp1
    subst hp2
    have hname1 : p.1.name ≠ "" := hnames p.1 (mem_conceptsIn hc1).1
    have hname2 : p.2.name ≠ "" := hnames p.2 (mem_conceptsIn hc2).1
    refine ⟨_, ?_, p.1, hc1, p.2, hc2, e1, e2, he1, he2, rfl, ?_⟩
    · unfold mkBridge
      rw [hbp, if_pos ⟨by simp [truthyName, hname1], by simp [truthyName, hname2]⟩]
      rfl
    · intro d1 hd1 d2 hd2 g1 g2 hg1 hg2
      have hdmem : (d1, d2) ∈ (conceptsIn cs comp).flatMap
          fun c1 => (conceptsIn cs mainC).map fun c2 => (c1, c2) :=
        List.mem_flatMap.2 ⟨d1, hd1, List.mem_map.2 ⟨d2, hd2, rfl⟩⟩
      have hdom := bestPair_foldl_dominates _ (none, none, -1) (d1, d2)
        hdmem g1 g2 hg1 hg2
      rw [heq] at hdom
      exact hdom

theorem componentsOf_eq_of_inter {cs : List Concept} {rels : List Rel}
    {S T : Finset String} (hS : S ∈ componentsOf cs rels)
    (hT : T ∈ componentsOf cs rels) {z : String} (hzS : z ∈ S) (hzT : z ∈ T) :
    S = T := by
  obtain ⟨a, ha, rfl⟩ := componentsOf_rep cs rels S hS
  obtain ⟨b, hb, rfl⟩ := componentsOf_rep cs rels T hT
  exact reachSet_eq_of_inter (name_mem_namesOf ha) (name_mem_namesOf hb) hzS hzT

theorem bridgeRels_mem_elim {cs : List Concept} {rels : List Rel} {r : Rel}
    (hr : r ∈ bridgeRels cs rels) :
    1 < (componentsOf cs rels).length ∧
    ∃ S ∈ componentsOf cs rels, S ≠ mainComp (componentsOf cs rels) ∧
      mkBridge cs (mainComp (componentsOf cs rels)) S = some r ∧ r.source ∈ S := by
  unfold bridgeRels at hr
  by_cases hlen : 1 < (componentsOf cs rels).length
  · rw [if_pos hlen] at hr
    rcases List.mem_filterMap.1 hr with ⟨S, hSf, hmk⟩
    rcases List.mem_filter.1 hSf with ⟨hS, hSne⟩
    have hSne' : S ≠ mainComp (componentsOf cs rels) := by simpa using hSne
    obtain ⟨r0, hr0, hsrc0, _, _, _⟩ := mkBridge_spec
      (conceptsIn_component_ne_nil hS)
      (conceptsIn_component_ne_nil (mainComp_mem (by
        intro h
        rw [h] at hlen
        simp at hlen)))
    rw [hr0] at hmk
    have : r0 = r := Option.some_injective _ hmk
    subst this
    exact ⟨hlen, S, hS, hSne', hr0, hsrc0⟩
  · rw [if_neg hlen] at hr
    exact absurd hr (List.not_mem_nil r)

/-- C3: when the input graph is disconnected and embeddings are available
(all pairwise similarities non-degenerate, names non-empty, names unique —
the source keys its dicts by name), the output appends, for each component
other than the largest, exactly one bridge relationship: type `related-to`,
strength `max(0.5, similarity * 0.8)`, `inferred := true`, joining a
similarity-maximal pair between the minor and the main component. -/
theorem bridge_per_component (cs : List Concept) (rels : List Rel)
    (_hnodup : (cs.map (·.name)).Nodup)
    (hemb : ∀ c ∈ cs, ∃ e, c.embedding = some e)
    (hnames : ∀ c ∈ cs, c.name ≠ "")
    (hsim : ∀ c ∈ cs, ∀ c' ∈ cs, ∀ e e', c.embedding = some e →
      c'.embedding = some e' → -1 < cosine_similarity e e')
    (h2 : 2 ≤ cs.length) :
    (buildHierarchyAndConnectivity cs rels).2 =
      rels ++ bridgeRels cs rels ++ (isoResult cs rels).1 ∧
    (∀ r ∈ bridgeRels cs rels, ∃ S ∈ componentsOf cs rels,
      S ≠ mainComp (componentsOf cs rels) ∧ r.source ∈ S) ∧
    ∀ S ∈ componentsOf cs rels, S ≠ mainComp (componentsOf cs rels) →
      ∃ r, (r ∈ bridgeRels cs rels ∧ r.source ∈ S) ∧
        (∀ r', r' ∈ bridgeRels cs rels → r'.source ∈ S → r' = r) ∧
        r.type = "related-to" ∧ r.inferred = true ∧
        r.target ∈ mainComp (componentsOf cs rels) ∧
        ∃ c1 ∈ conceptsIn cs S,
          ∃ c2 ∈ conceptsIn cs (mainComp (componentsOf cs rels)),
          ∃ e1 e2, c1.embedding = some e1 ∧ c2.embedding = some e2 ∧
            r.source = c1.name ∧ r.target = c2.name ∧
            r.strength = max 0.5 (cosine_similarity e1 e2 * 0.8) ∧
            ∀ d1 ∈ conceptsIn cs S,
              ∀ d2 ∈ conceptsIn cs (mainComp (componentsOf cs rels)),
              ∀ f1 f2, d1.embedding = some f1 → d2.embedding = some f2 →
              cosine_similarity f1 f2 ≤ cosine_similarity e1 e2 := by
  refine ⟨@build_snd cs rels h2, ?_, ?_⟩
  · intro r hr
    obtain ⟨_, S, hS, hSne, _, hsrc⟩ := bridgeRels_mem_elim hr
    exact ⟨S, hS, hSne, hsrc⟩
  · intro S hS hSne
    have hmainmem : mainComp (componentsOf cs rels) ∈ componentsOf cs rels :=
      mainComp_mem (List.ne_nil_of_mem hS)
    have hlen : 1 < (componentsOf cs rels).length := by
      by_contra hle
      push_neg at hle
      have h1 : (componentsOf cs rels).length = 1 := by
        have := List.length_pos.2 (List.ne_nil_of_mem hS)
        omega
      obtain ⟨T, hT⟩ := List.length_eq_one.1 h1
      rw [hT] at hS hmainmem hSne
      exact hSne ((List.mem_singleton.1 hS).trans (List.mem_singleton.1 hmainmem).symm)
    -- the best-path bridge for S
    obtain ⟨b1, hb1mem⟩ : ∃ b1, b1 ∈ conceptsIn cs S := by
      rcases h : conceptsIn cs S with _ | ⟨b1, t⟩
      · exact absurd h (conceptsIn_component_ne_nil hS)
      · exact ⟨b1, h ▸ List.mem_cons_self b1 t⟩
    obtain ⟨b2, hb2mem⟩ : ∃ b2, b2 ∈ conceptsIn cs (mainComp (componentsOf cs rels)) := by
      rcases h : conceptsIn cs (mainComp (componentsOf cs rels)) with _ | ⟨b2, t⟩
      · exact absurd h (conceptsIn_component_ne_nil hmainmem)
      · exact ⟨b2, h ▸ List.mem_cons_self b2 t⟩
    obtain ⟨f1, hf1⟩ := hemb b1 (mem_conceptsIn hb1mem).1
    obtain ⟨f2, hf2⟩ := hemb b2 (mem_conceptsIn hb2mem).1
    obtain ⟨r, hmk, c1, hc1, c2, hc2, e1, e2, he1, he2, hreq, hmax⟩ :=
      mkBridge_best hnames ⟨b1, hb1mem, b2, hb2mem, f1, f2, hf1, hf2,
        hsim b1 (mem_conceptsIn hb1mem).1 b2 (mem_conceptsIn hb2mem).1 f1 f2 hf1 hf2⟩
    have hrB : r ∈ bridgeRels cs rels := by
      unfold bridgeRels
      rw [if_pos hlen]
      exact List.mem_filterMap.2 ⟨S, List.mem_filter.2 ⟨hS, by simp [hSne]⟩, hmk⟩
    have hsrcS : r.source ∈ S := by
      rw [hreq]
      exact (mem_conceptsIn hc1).2
    refine ⟨r, ⟨hrB, hsrcS⟩, ?_, by rw [hreq], by rw [hreq], ?_,
      c1, hc1, c2, hc2, e1, e2, he1, he2, by rw [hreq], by rw [hreq],
      by rw [hreq], hmax⟩
    · intro r' hr' hsrc'
      obtain ⟨_, T, hT, _, hmkT, hsrcT⟩ := bridgeRels_mem_elim hr'
      have hTS : T = S := componentsOf_eq_of_inter hT hS hsrcT hsrc'
      rw [hTS] at hmkT
      rw [hmk] at hmkT
      exact (Option.some_injective _ hmkT).symm
    · rw [hreq]
      exact (mem_conceptsIn hc2).2

/-- C4 (amended): bridge relationships are always synthesized toward the
original largest component — every bridge's target lies in the main component
of the partition computed before bridging; the adjacency update after each
bridge is never consulted by the subsequent bridge searches. -/
theorem bridge_targets_original_main (cs : List Concept) (rels : List Rel) :
    ∀ r ∈ bridgeRels cs rels, r.target ∈ mainComp (componentsOf cs rels) ∧
      ∃ S ∈ componentsOf cs rels, S ≠ mainComp (componentsOf cs rels) ∧
        r.source ∈ S := by
  intro r hr
  obtain ⟨hlen, S, hS, hSne, hmk, hsrc⟩ := bridgeRels_mem_elim hr
  have hmainmem : mainComp (componentsOf cs rels) ∈ componentsOf cs rels :=
    mainComp_mem (List.ne_nil_of_mem hS)
  obtain ⟨r0, hr0, _, htgt0, _, _⟩ := mkBridge_spec
    (conceptsIn_component_ne_nil hS) (conceptsIn_component_ne_nil hmainmem)
  rw [hr0] at hmk
  have : r0 = r := Option.some_injective _ hmk
  subst this
  exact ⟨htgt0, S, hS, hSne, hsrc⟩

theorem zipWith_mul_sum_nonneg :
    ∀ (v1 v2 : List ℝ), (∀ x ∈ v1, 0 ≤ x) → (∀ x ∈ v2, 0 ≤ x) →
      0 ≤ (List.zipWith (fun a b => a * b) v1 v2).sum
  | [], _, _, _ => by simp
  | _ :: _, [], _, _ => by simp
  | a :: as, b :: bs, h1, h2 => by
    simp only [List.zipWith_cons_cons, List.sum_cons]
    have ha := h1 a (List.mem_cons_self a as)
    have hb := h2 b (List.mem_cons_self b bs)
    have hrec := zipWith_mul_sum_nonneg as bs
      (fun x hx => h1 x (List.mem_cons_of_mem a hx))
      (fun x hx => h2 x (List.mem_cons_of_mem b hx))
    nlinarith

theorem cosine_nonneg {v1 v2 : List ℝ} (h1 : ∀ x ∈ v1, 0 ≤ x)
    (h2 : ∀ x ∈ v2, 0 ≤ x) : 0 ≤ cosine_similarity v1 v2 := by
  unfold cosine_similarity
  split
  · exact le_refl 0
  · exact div_nonneg (zipWith_mul_sum_nonneg v1 v2 h1 h2)
      (mul_nonneg (l2norm_nonneg v1) (l2norm_nonneg v2))

/-- The four concepts and two relationships of the disconnected-graph
scenario: components `{A, B}` and `{C, D}`. -/
noncomputable def exA : Concept := { name := "A", importance := 0.5, embedding := some [1, 0] }

noncomputable def exB : Concept := { name := "B", importance := 0.5, embedding := some [0, 1] }

noncomputable def exC : Concept := { name := "C", importance := 0.5, embedding := some [3, 4] }

noncomputable def exD : Concept := { name := "D", importance := 0.5, embedding := some [4, 3] }

noncomputable def csEx3 : List Concept := [exA, exB, exC, exD]

noncomputable def relsEx3 : List Rel :=
  [{ source := "A", target := "B", type := "related-to", strength := 0.9 },
   { source := "C", target := "D", type := "related-to", strength := 0.9 }]

theorem csEx3_emb_nonneg :
    ∀ c ∈ csEx3, ∀ e, c.embedding = some e → ∀ x ∈ e, (0 : ℝ) ≤ x := by
  intro c hc e he x hx
  rcases List.mem_cons.1 hc with rfl | hc
  · obtain rfl : ([(1 : ℝ), 0]) = e := Option.some_injective _ he
    rcases List.mem_cons.1 hx with rfl | hx
    · norm_num
    · rw [List.mem_singleton.1 hx]
  rcases List.mem_cons.1 hc with rfl | hc
  · obtain rfl : ([(0 : ℝ), 1]) = e := Option.some_injective _ he
    rcases List.mem_cons.1 hx with rfl | hx
    · norm_num
    · rw [List.mem_singleton.1 hx]
      norm_num
  rcases List.mem_cons.1 hc with rfl | hc
  · obtain rfl : ([(3 : ℝ), 4]) = e := Option.some_injective _ he
    rcases List.mem_cons.1 hx with rfl | hx
    · norm_num
    · rw [List.mem_singleton.1 hx]
      norm_num
  rw [List.mem_singleton.1 hc] at he
  obtain rfl : ([(4 : ℝ), 3]) = e := Option.some_injective _ he
  rcases List.mem_cons.1 hx with rfl | hx
  · norm_num
  · rw [List.mem_singleton.1 hx]
    norm_num

theorem csEx3_hyps :
    (csEx3.map (·.name)).Nodup ∧
    (∀ c ∈ csEx3, ∃ e, c.embedding = some e) ∧
    (∀ c ∈ csEx3, c.name ≠ "") ∧
    (∀ c ∈ csEx3, ∀ c' ∈ csEx3, ∀ e e', c.embedding = some e →
      c'.embedding = some e' → -1 < cosine_similarity e e') ∧
    2 ≤ csEx3.length := by
  refine ⟨by decide, ?_, ?_, ?_, by decide⟩
  · intro c hc
    rcases List.mem_cons.1 hc with rfl | hc
    · exact ⟨[1, 0], rfl⟩
    rcases List.mem_cons.1 hc with rfl | hc
    · exact ⟨[0, 1], rfl⟩
    rcases List.mem_cons.1 hc with rfl | hc
    · exact ⟨[3, 4], rfl⟩
    rw [List.mem_singleton.1 hc]
    exact ⟨[4, 3], rfl⟩
  · intro c hc
    rcases List.mem_cons.1 hc with rfl | hc
    · decide
    rcases List.mem_cons.1 hc with rfl | hc
    · decide
    rcases List.mem_cons.1 hc with rfl | hc
    · decide
    rw [List.mem_singleton.1 hc]
    decide
  · intro c hc c' hc' e e' he he'
    have h0 : (0 : ℝ) ≤ cosine_similarity e e' :=
      cosine_nonneg (csEx3_emb_nonneg c hc e he) (csEx3_emb_nonneg c' hc' e' he')
    linarith

/-- Witness for C3 at the A-B / C-D two-component scenario. -/
theorem bridge_per_component_witness :
    ((csEx3.map (·.name)).Nodup ∧
     (∀ c ∈ csEx3, ∃ e, c.embedding = some e) ∧
     (∀ c ∈ csEx3, c.name ≠ "") ∧
     (∀ c ∈ csEx3, ∀ c' ∈ csEx3, ∀ e e', c.embedding = some e →
       c'.embedding = some e' → -1 < cosine_similarity e e') ∧
     2 ≤ csEx3.length) ∧
    ((buildHierarchyAndConnectivity csEx3 relsEx3).2 =
      relsEx3 ++ bridgeRels csEx3 relsEx3 ++ (isoResult csEx3 relsEx3).1 ∧
    (∀ r ∈ bridgeRels csEx3 relsEx3, ∃ S ∈ componentsOf csEx3 relsEx3,
      S ≠ mainComp (componentsOf csEx3 relsEx3) ∧ r.source ∈ S) ∧
    ∀ S ∈ componentsOf csEx3 relsEx3, S ≠ mainComp (componentsOf csEx3 relsEx3) →
      ∃ r, (r ∈ bridgeRels csEx3 relsEx3 ∧ r.source ∈ S) ∧
        (∀ r', r' ∈ bridgeRels csEx3 relsEx3 → r'.source ∈ S → r' = r) ∧
        r.type = "related-to" ∧ r.inferred = true ∧
        r.target ∈ mainComp (componentsOf csEx3 relsEx3) ∧
        ∃ c1 ∈ conceptsIn csEx3 S,
          ∃ c2 ∈ conceptsIn csEx3 (mainComp (componentsOf csEx3 relsEx3)),
          ∃ e1 e2, c1.embedding = some e1 ∧ c2.embedding = some e2 ∧
            r.source = c1.name ∧ r.target = c2.name ∧
            r.strength = max 0.5 (cosine_similarity e1 e2 * 0.8) ∧
            ∀ d1 ∈ conceptsIn csEx3 S,
              ∀ d2 ∈ conceptsIn csEx3 (mainComp (componentsOf csEx3 relsEx3)),
              ∀ f1 f2, d1.embedding = some f1 → d2.embedding = some f2 →
              cosine_similarity f1 f2 ≤ cosine_similarity e1 e2) :=
  ⟨csEx3_hyps,
    bridge_per_component csEx3 relsEx3 csEx3_hyps.1 csEx3_hyps.2.1 csEx3_hyps.2.2.1
      csEx3_hyps.2.2.2.1 csEx3_hyps.2.2.2.2⟩

/-- The three-component input of the merged-topology counterexample: `D`'s
embedding equals `C`'s, so under a merged-topology search `D` would bridge to
`C`; the code still compares `D` only against the original main component
`{A, B}`. -/
noncomputable def b4A : Concept := { name := "A", importance := 0.5, embedding := some [1, 0] }

noncomputable def b4B : Concept := { name := "B", importance := 0.5, embedding := some [0, 1] }

noncomputable def b4C : Concept := { name := "C", importance := 0.5, embedding := some [3, 4] }

noncomputable def b4D : Concept := { name := "D", importance := 0.5, embedding := some [3, 4] }

noncomputable def csEx4 : List Concept := [b4A, b4B, b4C, b4D]

noncomputable def relsEx4 : List Rel :=
  [{ source := "A", target := "B", type := "related-to", strength := 0.9 }]

/-- The two bridges the code synthesizes for the input above. -/
noncomputable def r4C : Rel :=
  { source := "C", target := "B", type := "related-to",
    strength := max 0.5 (0.8 * 0.8),
    description := "Bridge connection (component merge)", inferred := true }

noncomputable def r4D : Rel :=
  { source := "D", target := "B", type := "related-to",
    strength := max 0.5 (0.8 * 0.8),
    description := "Bridge connection (component merge)", inferred := true }

theorem l2norm_01 : l2norm [(0 : ℝ), 1] = 1 := by
  rw [l2norm2]
  exact sqrt_eval (by norm_num) (by norm_num)

theorem cos_34_10 : cosine_similarity [(3 : ℝ), 4] [1, 0] = 0.6 := by
  rw [cosine2_eval 3 4 1 0 5 1 l2norm_34 l2norm_10 (by norm_num) (by norm_num)]
  norm_num

theorem cos_34_01 : cosine_similarity [(3 : ℝ), 4] [0, 1] = 0.8 := by
  rw [cosine2_eval 3 4 0 1 5 1 l2norm_34 l2norm_01 (by norm_num) (by norm_num)]
  norm_num

theorem cos_34_34 : cosine_similarity [(3 : ℝ), 4] [3, 4] = 1 := by
  rw [cosine2_eval 3 4 3 4 5 5 l2norm_34 l2norm_34 (by norm_num) (by norm_num)]
  norm_num

theorem componentsOf_ex4 :
    componentsOf csEx4 relsEx4 = [{"A", "B"}, {"C"}, {"D"}] := by
  decide

theorem mainComp_ex4 :
    mainComp ([{"A", "B"}, {"C"}, {"D"}] : List (Finset String)) = {"A", "B"} := by
  decide

theorem conceptsIn_ex4_C : conceptsIn csEx4 ({"C"} : Finset String) = [b4C] := rfl

theorem conceptsIn_ex4_D : conceptsIn csEx4 ({"D"} : Finset String) = [b4D] := rfl

theorem conceptsIn_ex4_AB :
    conceptsIn csEx4 ({"A", "B"} : Finset String) = [b4A, b4B] := rfl

theorem bestPair_ex4_C :
    bestPair [b4C] [b4A, b4B] = (some "C", some "B", (0.8 : ℝ)) := by
  have h1 : bestPairStep (none, none, -1) (b4C, b4A) = (some "C", some "A", (0.6 : ℝ)) := by
    unfold bestPairStep
    simp only [b4C, b4A, cos_34_10]
    rw [if_pos (by norm_num)]
  have h2 : bestPairStep (some "C", some "A", (0.6 : ℝ)) (b4C, b4B) =
      (some "C", some "B", (0.8 : ℝ)) := by
    unfold bestPairStep
    simp only [b4C, b4B, cos_34_01]
    rw [if_pos (by norm_num)]
  show List.foldl bestPairStep (none, none, -1) [(b4C, b4A), (b4C, b4B)] = _
  rw [List.foldl_cons, h1, List.foldl_cons, h2, List.foldl_nil]

theorem bestPair_ex4_D :
    bestPair [b4D] [b4A, b4B] = (some "D", some "B", (0.8 : ℝ)) := by
  have h1 : bestPairStep (none, none, -1) (b4D, b4A) = (some "D", some "A", (0.6 : ℝ)) := by
    unfold bestPairStep
    simp only [b4D, b4A, cos_34_10]
    rw [if_pos (by norm_num)]
  have h2 : bestPairStep (some "D", some "A", (0.6 : ℝ)) (b4D, b4B) =
      (some "D", some "B", (0.8 : ℝ)) := by
    unfold bestPairStep
    simp only [b4D, b4B, cos_34_01]
    rw [if_pos (by norm_num)]
  show List.foldl bestPairStep (none, none, -1) [(b4D, b4A), (b4D, b4B)] = _
  rw [List.foldl_cons, h1, List.foldl_cons, h2, List.foldl_nil]

theorem mkBridge_ex4_C :
    mkBridge csEx4 ({"A", "B"} : Finset String) ({"C"} : Finset String) = some r4C := by
  unfold mkBridge
  rw [conceptsIn_ex4_C, conceptsIn_ex4_AB, bestPair_ex4_C,
    if_pos ⟨by simp [truthyName], by simp [truthyName]⟩]
  rfl

theorem mkBridge_ex4_D :
    mkBridge csEx4 ({"A", "B"} : Finset String) ({"D"} : Finset String) = some r4D := by
  unfold mkBridge
  rw [conceptsIn_ex4_D, conceptsIn_ex4_AB, bestPair_ex4_D,
    if_pos ⟨by simp [truthyName], by simp [truthyName]⟩]
  rfl

theorem bridgeRels_ex4 : bridgeRels csEx4 relsEx4 = [r4C, r4D] := by
  unfold bridgeRels
  rw [componentsOf_ex4, mainComp_ex4]
  rw [if_pos (by decide)]
  rw [show ([{"A", "B"}, {"C"}, {"D"}] : List (Finset String)).filter
      (fun S => S ≠ ({"A", "B"} : Finset String)) = [{"C"}, {"D"}] from by decide]
  simp only [List.filterMap_cons, mkBridge_ex4_C, mkBridge_ex4_D, List.filterMap_nil]

theorem countAfter_ex4_A : countAfterBridges csEx4 relsEx4 "A" = 1 := by
  unfold countAfterBridges
  rw [bridgeRels_ex4]
  rfl

theorem countAfter_ex4_B : countAfterBridges csEx4 relsEx4 "B" = 3 := by
  unfold countAfterBridges
  rw [bridgeRels_ex4]
  rfl

theorem countAfter_ex4_C : countAfterBridges csEx4 relsEx4 "C" = 1 := by
  unfold countAfterBridges
  rw [bridgeRels_ex4]
  rfl

theorem countAfter_ex4_D : countAfterBridges csEx4 relsEx4 "D" = 1 := by
  unfold countAfterBridges
  rw [bridgeRels_ex4]
  rfl

theorem isoResult_ex4 :
    isoResult csEx4 relsEx4 = ([], countAfterBridges csEx4 relsEx4) := by
  unfold isoResult
  have hfil : csEx4.filter
      (fun c => countAfterBridges csEx4 relsEx4 c.name = 0) = [] := by
    apply List.filter_eq_nil_iff.2
    intro c hc
    rcases List.mem_cons.1 hc with rfl | hc
    · simp [show b4A.name = "A" from rfl, countAfter_ex4_A]
    rcases List.mem_cons.1 hc with rfl | hc
    · simp [show b4B.name = "B" from rfl, countAfter_ex4_B]
    rcases List.mem_cons.1 hc with rfl | hc
    · simp [show b4C.name = "C" from rfl, countAfter_ex4_C]
    rw [List.mem_singleton.1 hc]
    simp [show b4D.name = "D" from rfl, countAfter_ex4_D]
  rw [hfil]
  rfl

theorem build_snd_ex4 :
    (buildHierarchyAndConnectivity csEx4 relsEx4).2 =
      [{ source := "A", target := "B", type := "related-to", strength := 0.9 },
        r4C, r4D] := by
  rw [@build_snd csEx4 relsEx4 (by decide), bridgeRels_ex4,
    show (isoResult csEx4 relsEx4).1 = [] from by rw [isoResult_ex4]]
  rfl

/-- C4 (counterexample): with components `{A,B}`, `{C}`, `{D}` where `D`'s
embedding equals `C`'s, `C` is bridged first (an inferred edge with source
`C` appears in the output), and `D`'s similarity to `C` (namely 1) strictly
exceeds its similarity to both members of the original main component — yet
`D`'s bridge targets `B` and no edge between `D` and `C` is ever synthesized:
the bridge search for the later component does not see the merged topology,
contradicting the claim. -/
theorem bridge_search_not_merged_topology :
    cosine_similarity [(3 : ℝ), 4] [1, 0] < cosine_similarity [(3 : ℝ), 4] [3, 4] ∧
    cosine_similarity [(3 : ℝ), 4] [0, 1] < cosine_similarity [(3 : ℝ), 4] [3, 4] ∧
    (∃ r ∈ (buildHierarchyAndConnectivity csEx4 relsEx4).2,
      r.source = "C" ∧ r.inferred = true) ∧
    (∃ r ∈ (buildHierarchyAndConnectivity csEx4 relsEx4).2,
      r.source = "D" ∧ r.target = "B" ∧ r.inferred = true) ∧
    ∀ r ∈ (buildHierarchyAndConnectivity csEx4 relsEx4).2,
      ¬((r.source = "D" ∧ r.target = "C") ∨ (r.source = "C" ∧ r.target = "D")) := by
  refine ⟨?_, ?_, ?_, ?_, ?_⟩
  · rw [cos_34_10, cos_34_34]
    norm_num
  · rw [cos_34_01, cos_34_34]
    norm_num
  · rw [build_snd_ex4]
    exact ⟨r4C, List.mem_cons_of_mem _ (List.mem_cons_self _ _), rfl, rfl⟩
  · rw [build_snd_ex4]
    exact ⟨r4D, List.mem_cons_of_mem _ (List.mem_cons_of_mem _ (List.mem_cons_self _ _)),
      rfl, rfl, rfl⟩
  · rw [build_snd_ex4]
    intro r hr
    rcases List.mem_cons.1 hr with rfl | hr
    · simp
    rcases List.mem_cons.1 hr with rfl | hr
    · simp [r4C]
    rw [List.mem_singleton.1 hr]
    simp [r4D]

/-- Witness for the amended C4 theorem at the concrete bridge `r4C`. -/
theorem bridge_targets_original_main_witness :
    r4C ∈ bridgeRels csEx4 relsEx4 ∧
    (r4C.target ∈ mainComp (componentsOf csEx4 relsEx4) ∧
      ∃ S ∈ componentsOf csEx4 relsEx4, S ≠ mainComp (componentsOf csEx4 relsEx4) ∧
        r4C.source ∈ S) :=
  ⟨by
    rw [bridgeRels_ex4]
    exact List.mem_cons_self _ _,
    bridge_targets_original_main csEx4 relsEx4 r4C
      (by
        rw [bridgeRels_ex4]
        exact List.mem_cons_self _ _)⟩

end BridgeTheorems

end TextProcessing
